import Mathlib

/-!
Verification of the genspark2api request-execution core against its
specification.  Go strings are modelled as lists of runes (`List Char`);
Go `strings.Builder` append is list append; machine integers that can go
negative (the parser's `stackDepth`) are `Int`.  Each definition is a
direct translation of the named Go function.
-/

set_option maxHeartbeats 1000000
set_option maxRecDepth 8192

/-- Runes of a Go string. -/
abbrev Lc := List Char

/-- Opening curly brace character (written via its code point). -/
def lbrace : Char := '\x7b'

/-- Closing curly brace character (written via its code point). -/
def rbrace : Char := '\x7d'

/-- Go `strings.Contains`: walks suffixes looking for the substring. -/
def containsL (s sub : Lc) : Bool :=
  match s with
  | [] => sub.isEmpty
  | _ :: rest => sub.isPrefixOf s || containsL rest sub

/-- Go `strings.HasPrefix`. -/
def hasPrefixL (s sub : Lc) : Bool := sub.isPrefixOf s

/-- Go `strings.HasSuffix`. -/
def hasSuffixL (s sub : Lc) : Bool := sub.reverse.isPrefixOf s.reverse

/-- ASCII whitespace recognised by Go `strings.TrimSpace` on the inputs
we model. -/
def isSpaceChar (c : Char) : Bool :=
  c = ' ' || c = '\n' || c = '\r' || c = '\t'

/-- Go `strings.TrimSpace` (ASCII subset). -/
def trimL (s : Lc) : Lc :=
  ((s.dropWhile isSpaceChar).reverse.dropWhile isSpaceChar).reverse

namespace tooluse

/-- States of `StreamParser` (src/tooluse/stream_parser.go, `ParserState`). -/
inductive ParserState where
  | StateInit
  | StateInObject
  | StateInKey
  | StateColon
  | StateInValue
  | StateTextDetecting
  | StateTextFindingTool
  | StateTextReadingName
  | StateTextReadingArgs
deriving DecidableEq, Repr

/-- Go `sp.state >= StateTextDetecting` (the text states are the last four
constants of the iota block). -/
def ParserState.isTextState : ParserState → Bool
  | .StateTextDetecting => true
  | .StateTextFindingTool => true
  | .StateTextReadingName => true
  | .StateTextReadingArgs => true
  | _ => false

/-- `StreamParser` (src/tooluse/stream_parser.go).  The Go struct also has
an unused `cursor` field, never read or written; it is omitted. -/
structure StreamParser where
  state : ParserState
  currentKey : Lc
  inString : Bool
  isEscaped : Bool
  stackDepth : Int
  ResponseType : Lc
  ToolName : Lc
  tempBuffer : Lc
  textBuffer : Lc
deriving DecidableEq, Repr

/-- `ParseEvent` (src/tooluse/stream_parser.go). -/
structure ParseEvent where
  Ty : Lc
  Content : Lc
  Tool : Lc
deriving DecidableEq, Repr

/-- `NewStreamParser` (zero value plus explicit fields). -/
def NewStreamParser : StreamParser :=
  { state := .StateInit, currentKey := [], inString := false, isEscaped := false,
    stackDepth := 0, ResponseType := [], ToolName := [], tempBuffer := [], textBuffer := [] }

/-- Per-character body of `StreamParser.processTextChar`. -/
def processTextChar (sp : StreamParser) (char : Char) : StreamParser × List ParseEvent :=
  match sp.state with
  | .StateTextDetecting =>
      let sp := { sp with textBuffer := sp.textBuffer ++ [char] }
      if char = '\n' then
        ({ sp with state := .StateTextFindingTool, textBuffer := [] }, [])
      else (sp, [])
  | .StateTextFindingTool =>
      if char = '-' then ({ sp with state := .StateTextReadingName }, [])
      else (sp, [])
  | .StateTextReadingName =>
      if char = ' ' ∧ sp.ToolName = [] then (sp, [])
      else if char = '(' then
        ({ sp with ToolName := sp.tempBuffer, tempBuffer := [],
                   state := .StateTextReadingArgs, ResponseType := "tool_call".data }, [])
      else ({ sp with tempBuffer := sp.tempBuffer ++ [char] }, [])
  | .StateTextReadingArgs =>
      if char = ')' ∧ sp.stackDepth = 0 ∧ sp.inString = false then
        ({ sp with state := .StateTextFindingTool, ToolName := [], ResponseType := [] }, [])
      else
        let sp :=
          if sp.inString then
            if sp.isEscaped then { sp with isEscaped := false }
            else if char = '\\' then { sp with isEscaped := true }
            else if char = '"' then { sp with inString := false }
            else sp
          else
            if char = '"' then { sp with inString := true }
            else if char = lbrace then { sp with stackDepth := sp.stackDepth + 1 }
            else if char = rbrace then { sp with stackDepth := sp.stackDepth - 1 }
            else sp
        (sp, [{ Ty := "tool_call_inc".data, Content := [char], Tool := sp.ToolName }])
  | _ => (sp, [])

/-- Unescape table of the `content` value handler inside
`StreamParser.Process` (the escaped-character switch). -/
def unescapeChar (char : Char) : Lc :=
  if char = 'n' then ['\n']
  else if char = 'r' then ['\r']
  else if char = 't' then ['\t']
  else if char = '"' then ['"']
  else if char = '\\' then ['\\']
  else if char = '/' then ['/']
  else if char = 'b' then ['\x08']
  else if char = 'f' then ['\x0c']
  else '\\' :: [char]

/-- Escaped-character handling of `StreamParser.Process`
(`sp.inString && sp.isEscaped`). -/
def processEscaped (sp : StreamParser) (char : Char) : StreamParser × List ParseEvent :=
  let sp := { sp with isEscaped := false }
  match sp.state with
  | .StateInKey => ({ sp with tempBuffer := sp.tempBuffer ++ [char] }, [])
  | .StateInValue =>
      if sp.currentKey = "type".data ∨ sp.currentKey = "tool".data then
        ({ sp with tempBuffer := sp.tempBuffer ++ [char] }, [])
      else if sp.currentKey = "content".data then
        if sp.ResponseType = "response".data then
          (sp, [{ Ty := "content".data, Content := unescapeChar char, Tool := [] }])
        else (sp, [])
      else (sp, [])
  | _ => (sp, [])

/-- Unescaped in-string character handling of `StreamParser.Process`
(`sp.inString && !sp.isEscaped`). -/
def processStringChar (sp : StreamParser) (char : Char) : StreamParser × List ParseEvent :=
  if char = '\\' then ({ sp with isEscaped := true }, [])
  else if char = '"' then
    let sp := { sp with inString := false }
    match sp.state with
    | .StateInKey =>
        ({ sp with currentKey := sp.tempBuffer, tempBuffer := [], state := .StateColon }, [])
    | .StateInValue =>
        let sp :=
          if sp.currentKey = "type".data then
            { sp with ResponseType := sp.tempBuffer, tempBuffer := [] }
          else sp
        let sp :=
          if sp.currentKey = "tool".data then
            { sp with ToolName := sp.tempBuffer, tempBuffer := [] }
          else sp
        ({ sp with state := .StateInObject }, [])
    | _ => (sp, [])
  else
    match sp.state with
    | .StateInKey => ({ sp with tempBuffer := sp.tempBuffer ++ [char] }, [])
    | .StateInValue =>
        if sp.currentKey = "type".data ∨ sp.currentKey = "tool".data then
          ({ sp with tempBuffer := sp.tempBuffer ++ [char] }, [])
        else if sp.currentKey = "content".data then
          if sp.ResponseType = "response".data then
            (sp, [{ Ty := "content".data, Content := [char], Tool := [] }])
          else (sp, [])
        else (sp, [])
    | _ => (sp, [])

/-- Bare (not-in-string) character switch of `StreamParser.Process`. -/
def processBare (sp : StreamParser) (char : Char) : StreamParser × List ParseEvent :=
  if char = lbrace then
    let sp := { sp with stackDepth := sp.stackDepth + 1 }
    (if sp.stackDepth = 1 then { sp with state := .StateInObject } else sp, [])
  else if char = rbrace then
    let sp := { sp with stackDepth := sp.stackDepth - 1 }
    (if sp.stackDepth = 1 then { sp with state := .StateInObject } else sp, [])
  else if char = '"' then
    let sp := { sp with inString := true }
    (if sp.state = .StateInObject then { sp with state := .StateInKey } else sp, [])
  else if char = ':' then
    (if sp.state = .StateColon then { sp with state := .StateInValue } else sp, [])
  else if char = ',' then
    (if sp.state = .StateInValue ∧ sp.stackDepth = 1 then
      { sp with state := .StateInObject, currentKey := [] }
     else sp, [])
  else (sp, [])

/-- String-state handling of `StreamParser.Process` (the `if sp.inString`
branch and the bare-character switch, lines 89-195 of the source). -/
def jsonStringStep (sp : StreamParser) (char : Char) : StreamParser × List ParseEvent :=
  if sp.inString then
    if sp.isEscaped then processEscaped sp char
    else processStringChar sp char
  else processBare sp char

/-- Argument-emission logic of `StreamParser.Process` (JSON mode): while a
tool call is being read, every character inside the arguments object (or the
closing brace returning to depth 1) is re-emitted raw. -/
def emitToolInc (prevDepth : Int) (sp1 : StreamParser) (char : Char) : List ParseEvent :=
  if sp1.ResponseType = "tool_call".data then
    if (sp1.stackDepth > 1 ∨ (sp1.stackDepth = 1 ∧ prevDepth = 2)) ∧ sp1.ToolName ≠ [] then
      [{ Ty := "tool_call_inc".data, Content := [char], Tool := sp1.ToolName }]
    else []
  else []

/-- One iteration of the character loop of `StreamParser.Process`. -/
def processChar (sp : StreamParser) (char : Char) : StreamParser × List ParseEvent :=
  if sp.state = .StateInit then
    if char = ' ' ∨ char = '\n' ∨ char = '\r' ∨ char = '\t' then (sp, [])
    else if char = lbrace then
      ({ sp with state := .StateInObject, stackDepth := 1 }, [])
    else
      ({ sp with state := .StateTextDetecting, textBuffer := sp.textBuffer ++ [char] }, [])
  else if sp.state.isTextState then
    processTextChar sp char
  else
    let r := jsonStringStep sp char
    (r.1, r.2 ++ emitToolInc sp.stackDepth r.1 char)

/-- `StreamParser.Process` over the runes of one chunk. -/
def processChars (sp : StreamParser) (cs : Lc) : StreamParser × List ParseEvent :=
  match cs with
  | [] => (sp, [])
  | c :: rest =>
      let r1 := processChar sp c
      let r2 := processChars r1.1 rest
      (r2.1, r1.2 ++ r2.2)

/-- Feeding a sequence of chunks through one parser, collecting all events. -/
def processChunks (sp : StreamParser) (chunks : List Lc) : StreamParser × List ParseEvent :=
  match chunks with
  | [] => (sp, [])
  | c :: rest =>
      let r1 := processChars sp c
      let r2 := processChunks r1.1 rest
      (r2.1, r1.2 ++ r2.2)

/-- Concatenation of the `Content` of all events with the given `Type`. -/
def eventConcat (ty : Lc) (evs : List ParseEvent) : Lc :=
  ((evs.filter (fun e => e.Ty = ty)).map (fun e => e.Content)).flatten

theorem processChars_append (sp : StreamParser) (a b : Lc) :
    processChars sp (a ++ b) =
      ((processChars (processChars sp a).1 b).1,
        (processChars sp a).2 ++ (processChars (processChars sp a).1 b).2) := by
  induction a generalizing sp with
  | nil => simp [processChars]
  | cons c rest ih =>
      simp only [List.cons_append, processChars, List.append_eq]
      rw [ih ((processChar sp c).1)]
      simp [List.append_assoc]

theorem processChunks_join (sp : StreamParser) (chunks : List Lc) :
    processChunks sp chunks = processChars sp chunks.flatten := by
  induction chunks generalizing sp with
  | nil => simp [processChunks, processChars]
  | cons c rest ih =>
      simp only [processChunks, List.flatten_cons, processChars_append, ih]

/-- Sanity check mirroring `TestStreamParser_Process_ToolCall`: the
two-chunk tool call yields the arguments object verbatim. -/
theorem sanity_process_tool_call :
    eventConcat "tool_call_inc".data
      (processChunks NewStreamParser
        [lbrace :: "\"type\":\"tool_call\",\"tool\":\"get_weather\",\"arguments\":".data
           ++ lbrace :: "\"ci".data,
         "ty\":\"Paris\"".data ++ [rbrace, rbrace]]).2
      = lbrace :: "\"city\":\"Paris\"".data ++ [rbrace] := by decide

/-- Sanity check mirroring `TestStreamParser_Process_Escaped`. -/
theorem sanity_process_escaped :
    eventConcat "content".data
      (processChars NewStreamParser
        (lbrace :: "\"type\":\"response\",\"content\":\"Line 1\\nLine \\\"2\\\"\"".data
          ++ [rbrace])).2
      = "Line 1\nLine \"2\"".data := by decide

/-- Sanity check mirroring `TestStreamParser_Process_TextToolCall`. -/
theorem sanity_process_text_tool_call :
    eventConcat "tool_call_inc".data
      (processChunks NewStreamParser
        ["[Assistant called tools]:\n".data,
         "- read_file".data, "(".data,
         lbrace :: "\"path\":\"test.go\"".data ++ [rbrace], ")\n".data]).2
      = lbrace :: "\"path\":\"test.go\"".data ++ [rbrace] := by decide

/-- The `ResponseType` invariant of text-sentinel mode: whenever the parser
sits in `StateTextReadingArgs`, it has recorded `ResponseType = "tool_call"`. -/
def TextArgsInv (sp : StreamParser) : Prop :=
  sp.state = .StateTextReadingArgs → sp.ResponseType = "tool_call".data

theorem textArgsInv_new : TextArgsInv NewStreamParser := by
  intro h
  simp [NewStreamParser] at h

theorem processEscaped_state (sp : StreamParser) (c : Char) :
    (processEscaped sp c).1.state = sp.state := by
  obtain ⟨st, ck, istr, iesc, d, rt, tn, tb, xb⟩ := sp
  cases st <;> simp only [processEscaped] <;> (try split_ifs) <;> rfl

theorem processStringChar_state_cases (sp : StreamParser) (c : Char) :
    (processStringChar sp c).1.state = sp.state ∨
    (processStringChar sp c).1.state = .StateColon ∨
    (processStringChar sp c).1.state = .StateInObject := by
  obtain ⟨st, ck, istr, iesc, d, rt, tn, tb, xb⟩ := sp
  cases st <;> simp only [processStringChar] <;> (try split_ifs) <;> simp

theorem processBare_state_cases (sp : StreamParser) (c : Char) :
    (processBare sp c).1.state = sp.state ∨
    (processBare sp c).1.state = .StateInObject ∨
    (processBare sp c).1.state = .StateInKey ∨
    (processBare sp c).1.state = .StateInValue := by
  obtain ⟨st, ck, istr, iesc, d, rt, tn, tb, xb⟩ := sp
  cases st <;> simp only [processBare] <;> (try split_ifs) <;> simp

theorem jsonStringStep_state_not_args (sp : StreamParser) (c : Char)
    (h : sp.state ≠ .StateTextReadingArgs) :
    (jsonStringStep sp c).1.state ≠ .StateTextReadingArgs := by
  unfold jsonStringStep
  split_ifs
  · rw [processEscaped_state]; exact h
  · rcases processStringChar_state_cases sp c with h1 | h1 | h1 <;> rw [h1] <;> simp_all
  · rcases processBare_state_cases sp c with h1 | h1 | h1 | h1 <;> rw [h1] <;> simp_all

theorem processEscaped_events (sp : StreamParser) (c : Char) :
    ∀ e ∈ (processEscaped sp c).2,
      e.Ty = "content".data ∧ e.Tool = [] ∧ sp.ResponseType = "response".data := by
  obtain ⟨st, ck, istr, iesc, d, rt, tn, tb, xb⟩ := sp
  cases st <;> simp only [processEscaped] <;> (try split_ifs) <;> intro e he <;> simp_all

theorem processStringChar_events (sp : StreamParser) (c : Char) :
    ∀ e ∈ (processStringChar sp c).2,
      e.Ty = "content".data ∧ e.Tool = [] ∧ sp.ResponseType = "response".data := by
  obtain ⟨st, ck, istr, iesc, d, rt, tn, tb, xb⟩ := sp
  cases st <;> simp only [processStringChar] <;> (try split_ifs) <;> intro e he <;> simp_all

theorem processBare_events (sp : StreamParser) (c : Char) :
    (processBare sp c).2 = [] := by
  unfold processBare
  split_ifs <;> rfl

theorem jsonStringStep_events (sp : StreamParser) (c : Char) :
    ∀ e ∈ (jsonStringStep sp c).2,
      e.Ty = "content".data ∧ e.Tool = [] ∧ sp.ResponseType = "response".data := by
  unfold jsonStringStep
  split_ifs
  · exact processEscaped_events sp c
  · exact processStringChar_events sp c
  · rw [processBare_events]; intro e he; simp at he

theorem textArgsInv_step (sp : StreamParser) (c : Char) (h : TextArgsInv sp) :
    TextArgsInv (processChar sp c).1 := by
  unfold TextArgsInv at h ⊢
  obtain ⟨st, ck, istr, iesc, d, rt, tn, tb, xb⟩ := sp
  cases st with
  | StateInit =>
      intro hra
      exfalso
      simp only [processChar] at hra
      split_ifs at hra <;> simp_all
  | StateTextDetecting =>
      intro hra
      exfalso
      simp only [processChar, ParserState.isTextState, processTextChar] at hra
      split_ifs at hra <;> simp_all
  | StateTextFindingTool =>
      intro hra
      exfalso
      simp only [processChar, ParserState.isTextState, processTextChar] at hra
      split_ifs at hra <;> simp_all
  | StateTextReadingName =>
      simp only [processChar, ParserState.isTextState, processTextChar]
      split_ifs <;> intro hra <;> simp_all
  | StateTextReadingArgs =>
      have hrt : rt = "tool_call".data := h rfl
      subst hrt
      simp only [processChar, ParserState.isTextState, processTextChar]
      split_ifs <;> intro hra <;> simp_all
  | StateInObject =>
      intro hra
      exact jsonStringStep_state_not_args
        ⟨.StateInObject, ck, istr, iesc, d, rt, tn, tb, xb⟩ c (by simp)
        (by simpa [processChar, ParserState.isTextState] using hra) |>.elim
  | StateInKey =>
      intro hra
      exact jsonStringStep_state_not_args
        ⟨.StateInKey, ck, istr, iesc, d, rt, tn, tb, xb⟩ c (by simp)
        (by simpa [processChar, ParserState.isTextState] using hra) |>.elim
  | StateColon =>
      intro hra
      exact jsonStringStep_state_not_args
        ⟨.StateColon, ck, istr, iesc, d, rt, tn, tb, xb⟩ c (by simp)
        (by simpa [processChar, ParserState.isTextState] using hra) |>.elim
  | StateInValue =>
      intro hra
      exact jsonStringStep_state_not_args
        ⟨.StateInValue, ck, istr, iesc, d, rt, tn, tb, xb⟩ c (by simp)
        (by simpa [processChar, ParserState.isTextState] using hra) |>.elim

theorem processChar_json (sp : StreamParser) (c : Char)
    (h1 : sp.state ≠ .StateInit) (h2 : sp.state.isTextState = false) :
    processChar sp c =
      ((jsonStringStep sp c).1,
        (jsonStringStep sp c).2 ++ emitToolInc sp.stackDepth (jsonStringStep sp c).1 c) := by
  unfold processChar
  rw [if_neg h1, if_neg (by simp [h2])]

theorem processChar_text (sp : StreamParser) (c : Char)
    (h : sp.state.isTextState = true) :
    processChar sp c = processTextChar sp c := by
  have h1 : sp.state ≠ .StateInit := by
    intro hx
    rw [hx] at h
    simp [ParserState.isTextState] at h
  unfold processChar
  rw [if_neg h1, if_pos h]

theorem emitToolInc_events (pd : Int) (sp1 : StreamParser) (c : Char) :
    ∀ e ∈ emitToolInc pd sp1 c,
      e = { Ty := "tool_call_inc".data, Content := [c], Tool := sp1.ToolName } ∧
      sp1.ResponseType = "tool_call".data ∧ sp1.ToolName ≠ [] := by
  unfold emitToolInc
  split_ifs <;> intro e he <;> simp_all

theorem textArgsInv_run (sp : StreamParser) (cs : Lc) (h : TextArgsInv sp) :
    TextArgsInv (processChars sp cs).1 := by
  induction cs generalizing sp with
  | nil => exact h
  | cons c rest ih => exact ih _ (textArgsInv_step sp c h)

theorem processChar_event_gating (sp : StreamParser) (c : Char) (h : TextArgsInv sp) :
    ∀ e ∈ (processChar sp c).2,
      (e.Ty = "content".data → sp.ResponseType = "response".data) ∧
      (e.Ty = "tool_call_inc".data →
        (processChar sp c).1.ResponseType = "tool_call".data ∧
        (sp.state.isTextState = false → e.Tool ≠ [])) := by
  by_cases hInit : sp.state = .StateInit
  · intro e he
    unfold processChar at he
    rw [if_pos hInit] at he
    split_ifs at he <;> simp at he
  · by_cases hText : sp.state.isTextState = true
    · have hpt := processChar_text sp c hText
      rw [hpt]
      intro e he
      obtain ⟨st, ck, istr, iesc, d, rt, tn, tb, xb⟩ := sp
      unfold TextArgsInv at h
      cases st with
      | StateTextReadingArgs =>
          have hrt : rt = "tool_call".data := h rfl
          subst hrt
          simp only [processTextChar] at he ⊢
          split_ifs at he ⊢ <;> simp_all
      | StateTextDetecting =>
          simp only [processTextChar] at he
          split_ifs at he <;> simp at he
      | StateTextFindingTool =>
          simp only [processTextChar] at he
          split_ifs at he <;> simp at he
      | StateTextReadingName =>
          simp only [processTextChar] at he
          split_ifs at he <;> simp at he
      | StateInit => simp [ParserState.isTextState] at hText
      | StateInObject => simp [ParserState.isTextState] at hText
      | StateInKey => simp [ParserState.isTextState] at hText
      | StateColon => simp [ParserState.isTextState] at hText
      | StateInValue => simp [ParserState.isTextState] at hText
    · have hT2 : sp.state.isTextState = false := by simpa using hText
      have hpj := processChar_json sp c hInit hT2
      rw [hpj]
      intro e he
      rcases List.mem_append.mp he with h1 | h1
      · have h2 := jsonStringStep_events sp c e h1
        refine ⟨fun _ => h2.2.2, fun hty => ?_⟩
        exact absurd (h2.1.symm.trans hty) (by decide)
      · obtain ⟨he2, hrt, htn⟩ :=
          emitToolInc_events sp.stackDepth (jsonStringStep sp c).1 c e h1
        subst he2
        refine ⟨fun hty => ?_, fun _ => ⟨hrt, fun _ => htn⟩⟩
        simp at hty

/-- Claim C10 (amended): in every reachable parser state, a `content` event
is emitted only when the parser has recorded `ResponseType = "response"`,
and a `tool_call_inc` event is emitted only when `ResponseType = "tool_call"`
holds at that character; moreover, in JSON mode (the parser not being in a
text-sentinel state) every `tool_call_inc` event carries a non-empty tool
name.  (In text-sentinel mode the tool name may be empty.) -/
theorem C10_event_gating_amended (chunks : List Lc) (c : Char) :
    ∀ e ∈ (processChar (processChunks NewStreamParser chunks).1 c).2,
      (e.Ty = "content".data →
        (processChunks NewStreamParser chunks).1.ResponseType = "response".data) ∧
      (e.Ty = "tool_call_inc".data →
        (processChar (processChunks NewStreamParser chunks).1 c).1.ResponseType
            = "tool_call".data ∧
        ((processChunks NewStreamParser chunks).1.state.isTextState = false →
          e.Tool ≠ [])) := by
  have hinv : TextArgsInv (processChunks NewStreamParser chunks).1 := by
    rw [processChunks_join]
    exact textArgsInv_run _ _ textArgsInv_new
  exact processChar_event_gating _ c hinv

/-- Concrete instantiation of the C10 gating theorem: after the prefix of a
JSON `response` reply, the next content character is emitted as a `content`
event and the parser has indeed recorded `ResponseType = "response"`. -/
theorem C10_event_gating_amended_witness :
    ({ Ty := "content".data, Content := ['H'], Tool := [] } : ParseEvent) ∈
      (processChar
        (processChunks NewStreamParser
          [lbrace :: "\"type\":\"response\",\"content\":\"".data]).1 'H').2 ∧
    (processChunks NewStreamParser
        [lbrace :: "\"type\":\"response\",\"content\":\"".data]).1.ResponseType
      = "response".data := by
  refine ⟨by decide, ?_⟩
  exact (C10_event_gating_amended
      [lbrace :: "\"type\":\"response\",\"content\":\"".data] 'H'
      { Ty := "content".data, Content := ['H'], Tool := [] } (by decide)).1 (by decide)

/-- Claim C10 as frozen is false: in text-sentinel mode a `tool_call_inc`
event can be emitted with an empty `ToolName` (input `x\n- ({})`: the dash
is followed by a space and an opening parenthesis, so the captured tool name
is the empty string, yet argument characters are streamed). -/
theorem C10_counterexample :
    ¬ (∀ e ∈ (processChars NewStreamParser
          ("x\n- (".data ++ [lbrace, rbrace] ++ [')'])).2,
        e.Ty = "tool_call_inc".data → e.Tool ≠ []) := by decide

/-- Claim C1 as frozen is false: for the well-formed reply
`(lbrace)"type":"tool_call","tool":"t","arguments":A(rbrace)` with the valid
JSON object `A = (lbrace)"a":(lbrace)"type":"x"(rbrace)(rbrace)`, the
concatenated `tool_call_inc` contents are not the serialization of `A` (the
nested key `type` clobbers the parser's `ResponseType`, truncating the
emission), already for the single-chunk partition. -/
theorem C1_counterexample :
    ¬ (eventConcat "tool_call_inc".data
        (processChars NewStreamParser
          (lbrace :: "\"type\":\"tool_call\",\"tool\":\"t\",\"arguments\":".data
            ++ (lbrace :: "\"a\":".data ++ lbrace :: "\"type\":\"x\"".data
                ++ [rbrace, rbrace])
            ++ [rbrace])).2
        = lbrace :: "\"a\":".data ++ lbrace :: "\"type\":\"x\"".data
            ++ [rbrace, rbrace]) := by decide

/-! JSON values (strings, atoms such as numbers and literals, arrays and
objects, without escape sequences inside string literals), their textual
serialization, and the abstract effect of reading one value on the parser's
key-tracking state.  Used to settle the tool-call streaming claim. -/

mutual
inductive JVal where
  | jstr : Lc → JVal
  | jatom : Lc → JVal
  | jarr : JList → JVal
  | jobj : JFields → JVal
deriving DecidableEq
inductive JList where
  | jnil : JList
  | jcons : JVal → JList → JList
deriving DecidableEq
inductive JFields where
  | fnil : JFields
  | fcons : Lc → JVal → JFields → JFields
deriving DecidableEq
end

mutual
def JVal.ser : JVal → Lc
  | .jstr s => '"' :: s ++ ['"']
  | .jatom s => s
  | .jarr l => '[' :: JList.ser l ++ [']']
  | .jobj f => lbrace :: JFields.ser f ++ [rbrace]
def JList.ser : JList → Lc
  | .jnil => []
  | .jcons v rest => JVal.ser v ++ JList.serTail rest
def JList.serTail : JList → Lc
  | .jnil => []
  | .jcons v rest => ',' :: JVal.ser v ++ JList.serTail rest
def JFields.ser : JFields → Lc
  | .fnil => []
  | .fcons k v rest => '"' :: k ++ '"' :: ':' :: JVal.ser v ++ JFields.serTail rest
def JFields.serTail : JFields → Lc
  | .fnil => []
  | .fcons k v rest => ',' :: ('"' :: k ++ '"' :: ':' :: JVal.ser v) ++ JFields.serTail rest
end

/-- A string literal is parser-safe when it contains no quote and no
backslash, and its content is neither `type` nor `tool` (the two key names
whose capture mutates `ResponseType` / `ToolName`). -/
def strOK (s : Lc) : Bool :=
  s.all (fun c => !(c = '"' : Bool) && !(c = '\\' : Bool)) &&
    !(s = "type".data : Bool) && !(s = "tool".data : Bool)

/-- An atom (number, `true`, `false`, `null`, …) holds none of the
characters the bare-character switch of the parser reacts to. -/
def atomOK (s : Lc) : Bool :=
  s.all (fun c =>
    !(c = '"' : Bool) && !(c = '\\' : Bool) && !(c = lbrace : Bool) &&
    !(c = rbrace : Bool) && !(c = ':' : Bool) && !(c = ',' : Bool))

mutual
def JVal.wf : JVal → Bool
  | .jstr s => strOK s
  | .jatom s => atomOK s
  | .jarr l => JList.wf l
  | .jobj f => JFields.wf f
def JList.wf : JList → Bool
  | .jnil => true
  | .jcons v rest => JVal.wf v && JList.wf rest
def JFields.wf : JFields → Bool
  | .fnil => true
  | .fcons k v rest => strOK k && JVal.wf v && JFields.wf rest
end

/-- Key-tracking fragment of the parser state while scanning the arguments
object: the JSON sub-state and the current key. -/
structure Inner where
  st : ParserState
  key : Lc
deriving DecidableEq

/-- Effect of one complete quoted string on the key-tracking state. -/
def strT (s : Lc) (i : Inner) : Inner :=
  match i.st with
  | .StateInObject => ⟨.StateColon, s⟩
  | .StateInValue => ⟨.StateInObject, i.key⟩
  | _ => i

/-- Effect of a colon character on the key-tracking state. -/
def colonT (i : Inner) : Inner :=
  match i.st with
  | .StateColon => ⟨.StateInValue, i.key⟩
  | _ => i

mutual
def JVal.innerT : JVal → Inner → Inner
  | .jstr s, i => strT s i
  | .jatom _, i => i
  | .jarr l, i => JList.innerT l i
  | .jobj f, i => JFields.innerT f i
def JList.innerT : JList → Inner → Inner
  | .jnil, i => i
  | .jcons v rest, i => JList.innerT rest (JVal.innerT v i)
def JFields.innerT : JFields → Inner → Inner
  | .fnil, i => i
  | .fcons k v rest, i => JFields.innerT rest (JVal.innerT v (colonT (strT k i)))
end

/-- Safety of a key-tracking state: one of the three in-object sub-states,
with a current key that is neither `type` nor `tool`. -/
def innerOK (i : Inner) : Prop :=
  (i.st = .StateInObject ∨ i.st = .StateColon ∨ i.st = .StateInValue) ∧
    i.key ≠ "type".data ∧ i.key ≠ "tool".data

/-- Full parser state between tokens of the arguments object. -/
def midState (i : Inner) (d : Int) (N xb : Lc) : StreamParser :=
  { state := i.st, currentKey := i.key, inString := false, isEscaped := false,
    stackDepth := d, ResponseType := "tool_call".data, ToolName := N,
    tempBuffer := [], textBuffer := xb }

/-- Full parser state in the middle of a quoted string of the arguments
object. -/
def midStr (st : ParserState) (k b : Lc) (d : Int) (N xb : Lc) : StreamParser :=
  { state := st, currentKey := k, inString := true, isEscaped := false,
    stackDepth := d, ResponseType := "tool_call".data, ToolName := N,
    tempBuffer := b, textBuffer := xb }

/-- The raw re-emission of a character sequence as `tool_call_inc` events. -/
def incEvs (N : Lc) (cs : Lc) : List ParseEvent :=
  cs.map (fun c => { Ty := "tool_call_inc".data, Content := [c], Tool := N })

@[simp] theorem incEvs_nil (N : Lc) : incEvs N [] = [] := rfl

@[simp] theorem incEvs_cons (N : Lc) (c : Char) (cs : Lc) :
    incEvs N (c :: cs) =
      { Ty := "tool_call_inc".data, Content := [c], Tool := N } :: incEvs N cs := rfl

@[simp] theorem incEvs_append (N : Lc) (a b : Lc) :
    incEvs N (a ++ b) = incEvs N a ++ incEvs N b := by
  simp [incEvs]

theorem inner3_not_init {st : ParserState}
    (h : st = .StateInObject ∨ st = .StateColon ∨ st = .StateInValue) :
    st ≠ .StateInit := by
  rcases h with h | h | h <;> subst h <;> decide

theorem inner3_not_text {st : ParserState}
    (h : st = .StateInObject ∨ st = .StateColon ∨ st = .StateInValue) :
    st.isTextState = false := by
  rcases h with h | h | h <;> subst h <;> rfl

theorem stepInert (i : Inner) (d : Int) (N xb : Lc) (c : Char)
    (hok : innerOK i) (hd : 1 < d) (hN : N ≠ [])
    (hc : ¬c = '"' ∧ ¬c = '\\' ∧ ¬c = lbrace ∧ ¬c = rbrace ∧ ¬c = ':' ∧ ¬c = ',') :
    processChar (midState i d N xb) c = (midState i d N xb, incEvs N [c]) := by
  obtain ⟨h3, hk1, hk2⟩ := hok
  rw [processChar_json _ _ (by simpa [midState] using inner3_not_init h3)
      (by simpa [midState] using inner3_not_text h3)]
  obtain ⟨hc1, hc2, hc3, hc4, hc5, hc6⟩ := hc
  simp [jsonStringStep, processBare, emitToolInc, midState, incEvs,
    hc1, hc2, hc3, hc4, hc5, hc6, hN, hd]

theorem stepColon (i : Inner) (d : Int) (N xb : Lc)
    (hok : innerOK i) (hd : 1 < d) (hN : N ≠ []) :
    processChar (midState i d N xb) ':' =
      (midState (colonT i) d N xb, incEvs N [':']) := by
  obtain ⟨h3, hk1, hk2⟩ := hok
  rw [processChar_json _ _ (by simpa [midState] using inner3_not_init h3)
      (by simpa [midState] using inner3_not_text h3)]
  rcases h3 with h | h | h <;>
    (obtain ⟨st, key⟩ := i; simp at h; subst h) <;>
    simp [jsonStringStep, processBare, emitToolInc, midState, colonT, incEvs, hN, hd, lbrace, rbrace]

theorem stepComma (i : Inner) (d : Int) (N xb : Lc)
    (hok : innerOK i) (hd : 1 < d) (hN : N ≠ []) :
    processChar (midState i d N xb) ',' =
      (midState i d N xb, incEvs N [',']) := by
  obtain ⟨h3, hk1, hk2⟩ := hok
  rw [processChar_json _ _ (by simpa [midState] using inner3_not_init h3)
      (by simpa [midState] using inner3_not_text h3)]
  have hne : ¬(i.st = .StateInValue ∧ d = 1) := by
    rintro ⟨-, h2⟩
    omega
  simp [jsonStringStep, processBare, emitToolInc, midState, incEvs, hN, hd, hne, lbrace, rbrace]

theorem stepLbrace (i : Inner) (d : Int) (N xb : Lc)
    (hok : innerOK i) (hd : 0 < d) (hN : N ≠ []) :
    processChar (midState i d N xb) lbrace =
      (midState i (d + 1) N xb, incEvs N [lbrace]) := by
  obtain ⟨h3, hk1, hk2⟩ := hok
  rw [processChar_json _ _ (by simpa [midState] using inner3_not_init h3)
      (by simpa [midState] using inner3_not_text h3)]
  have h1 : ¬(d + 1 = (1 : Int)) := by omega
  have h2 : (1 : Int) < d + 1 := by omega
  simp [jsonStringStep, processBare, emitToolInc, midState, incEvs, hN, h1, h2, lbrace, rbrace]

theorem stepRbraceNested (i : Inner) (d : Int) (N xb : Lc)
    (hok : innerOK i) (hd : 2 < d) (hN : N ≠ []) :
    processChar (midState i d N xb) rbrace =
      (midState i (d - 1) N xb, incEvs N [rbrace]) := by
  obtain ⟨h3, hk1, hk2⟩ := hok
  rw [processChar_json _ _ (by simpa [midState] using inner3_not_init h3)
      (by simpa [midState] using inner3_not_text h3)]
  have h1 : ¬(d - 1 = (1 : Int)) := by omega
  have h2 : (1 : Int) < d - 1 := by omega
  simp [jsonStringStep, processBare, emitToolInc, midState, incEvs, hN, h1, h2, lbrace, rbrace]

theorem stepRbraceClose (i : Inner) (N xb : Lc)
    (hok : innerOK i) (hN : N ≠ []) :
    processChar (midState i 2 N xb) rbrace =
      (midState ⟨.StateInObject, i.key⟩ 1 N xb, incEvs N [rbrace]) := by
  obtain ⟨h3, hk1, hk2⟩ := hok
  rw [processChar_json _ _ (by simpa [midState] using inner3_not_init h3)
      (by simpa [midState] using inner3_not_text h3)]
  simp [jsonStringStep, processBare, emitToolInc, midState, incEvs, hN, lbrace, rbrace]

theorem stepOpenQuoteObj (k : Lc) (d : Int) (N xb : Lc) (hd : 1 < d) (hN : N ≠ []) :
    processChar (midState ⟨.StateInObject, k⟩ d N xb) '"' =
      (midStr .StateInKey k [] d N xb, incEvs N ['"']) := by
  rw [processChar_json _ _ (by simp [midState]) (by simp [midState, ParserState.isTextState])]
  simp [jsonStringStep, processBare, emitToolInc, midState, midStr, incEvs, hN, hd,
    lbrace, rbrace]

theorem stepOpenQuoteColon (k : Lc) (d : Int) (N xb : Lc) (hd : 1 < d) (hN : N ≠ []) :
    processChar (midState ⟨.StateColon, k⟩ d N xb) '"' =
      (midStr .StateColon k [] d N xb, incEvs N ['"']) := by
  rw [processChar_json _ _ (by simp [midState]) (by simp [midState, ParserState.isTextState])]
  simp [jsonStringStep, processBare, emitToolInc, midState, midStr, incEvs, hN, hd,
    lbrace, rbrace]

theorem stepOpenQuoteValue (k : Lc) (d : Int) (N xb : Lc) (hd : 1 < d) (hN : N ≠ []) :
    processChar (midState ⟨.StateInValue, k⟩ d N xb) '"' =
      (midStr .StateInValue k [] d N xb, incEvs N ['"']) := by
  rw [processChar_json _ _ (by simp [midState]) (by simp [midState, ParserState.isTextState])]
  simp [jsonStringStep, processBare, emitToolInc, midState, midStr, incEvs, hN, hd,
    lbrace, rbrace]

theorem stepStrBodyKey (k b : Lc) (d : Int) (N xb : Lc) (c : Char)
    (hd : 1 < d) (hN : N ≠ []) (hc1 : ¬c = '"') (hc2 : ¬c = '\\') :
    processChar (midStr .StateInKey k b d N xb) c =
      (midStr .StateInKey k (b ++ [c]) d N xb, incEvs N [c]) := by
  rw [processChar_json _ _ (by simp [midStr]) (by simp [midStr, ParserState.isTextState])]
  simp [jsonStringStep, processStringChar, emitToolInc, midStr, incEvs, hc1, hc2, hN, hd]

theorem stepStrBodyColon (k b : Lc) (d : Int) (N xb : Lc) (c : Char)
    (hd : 1 < d) (hN : N ≠ []) (hc1 : ¬c = '"') (hc2 : ¬c = '\\') :
    processChar (midStr .StateColon k b d N xb) c =
      (midStr .StateColon k b d N xb, incEvs N [c]) := by
  rw [processChar_json _ _ (by simp [midStr]) (by simp [midStr, ParserState.isTextState])]
  simp [jsonStringStep, processStringChar, emitToolInc, midStr, incEvs, hc1, hc2, hN, hd]

theorem stepStrBodyValue (k b : Lc) (d : Int) (N xb : Lc) (c : Char)
    (hk1 : k ≠ "type".data) (hk2 : k ≠ "tool".data)
    (hd : 1 < d) (hN : N ≠ []) (hc1 : ¬c = '"') (hc2 : ¬c = '\\') :
    processChar (midStr .StateInValue k b d N xb) c =
      (midStr .StateInValue k b d N xb, incEvs N [c]) := by
  rw [processChar_json _ _ (by simp [midStr]) (by simp [midStr, ParserState.isTextState])]
  by_cases hkc : k = "content".data <;>
    simp [jsonStringStep, processStringChar, emitToolInc, midStr, incEvs,
      hc1, hc2, hN, hd, hk1, hk2, hkc]

theorem stepCloseQuoteKey (k b : Lc) (d : Int) (N xb : Lc)
    (hd : 1 < d) (hN : N ≠ []) :
    processChar (midStr .StateInKey k b d N xb) '"' =
      (midState ⟨.StateColon, b⟩ d N xb, incEvs N ['"']) := by
  rw [processChar_json _ _ (by simp [midStr]) (by simp [midStr, ParserState.isTextState])]
  simp [jsonStringStep, processStringChar, emitToolInc, midStr, midState, incEvs, hN, hd]

theorem stepCloseQuoteValue (k : Lc) (d : Int) (N xb : Lc)
    (hk1 : k ≠ "type".data) (hk2 : k ≠ "tool".data)
    (hd : 1 < d) (hN : N ≠ []) :
    processChar (midStr .StateInValue k [] d N xb) '"' =
      (midState ⟨.StateInObject, k⟩ d N xb, incEvs N ['"']) := by
  rw [processChar_json _ _ (by simp [midStr]) (by simp [midStr, ParserState.isTextState])]
  simp [jsonStringStep, processStringChar, emitToolInc, midStr, midState, incEvs,
    hN, hd, hk1, hk2]

theorem stepCloseQuoteColon (k : Lc) (d : Int) (N xb : Lc)
    (hd : 1 < d) (hN : N ≠ []) :
    processChar (midStr .StateColon k [] d N xb) '"' =
      (midState ⟨.StateColon, k⟩ d N xb, incEvs N ['"']) := by
  rw [processChar_json _ _ (by simp [midStr]) (by simp [midStr, ParserState.isTextState])]
  simp [jsonStringStep, processStringChar, emitToolInc, midStr, midState, incEvs, hN, hd]

theorem strBodyRunKey (s : Lc) (hs : ∀ c ∈ s, ¬c = '"' ∧ ¬c = '\\')
    (k b : Lc) (d : Int) (N xb : Lc) (hd : 1 < d) (hN : N ≠ []) :
    processChars (midStr .StateInKey k b d N xb) s =
      (midStr .StateInKey k (b ++ s) d N xb, incEvs N s) := by
  induction s generalizing b with
  | nil => simp [processChars]
  | cons c rest ih =>
      have hc := hs c (by simp)
      simp only [processChars]
      rw [stepStrBodyKey k b d N xb c hd hN hc.1 hc.2]
      rw [ih (fun x hx => hs x (by simp [hx])) (b ++ [c])]
      simp

theorem strBodyRunColon (s : Lc) (hs : ∀ c ∈ s, ¬c = '"' ∧ ¬c = '\\')
    (k b : Lc) (d : Int) (N xb : Lc) (hd : 1 < d) (hN : N ≠ []) :
    processChars (midStr .StateColon k b d N xb) s =
      (midStr .StateColon k b d N xb, incEvs N s) := by
  induction s with
  | nil => simp [processChars]
  | cons c rest ih =>
      have hc := hs c (by simp)
      simp only [processChars]
      rw [stepStrBodyColon k b d N xb c hd hN hc.1 hc.2]
      rw [ih (fun x hx => hs x (by simp [hx]))]
      simp

theorem strBodyRunValue (s : Lc) (hs : ∀ c ∈ s, ¬c = '"' ∧ ¬c = '\\')
    (k b : Lc) (d : Int) (N xb : Lc)
    (hk1 : k ≠ "type".data) (hk2 : k ≠ "tool".data) (hd : 1 < d) (hN : N ≠ []) :
    processChars (midStr .StateInValue k b d N xb) s =
      (midStr .StateInValue k b d N xb, incEvs N s) := by
  induction s with
  | nil => simp [processChars]
  | cons c rest ih =>
      have hc := hs c (by simp)
      simp only [processChars]
      rw [stepStrBodyValue k b d N xb c hk1 hk2 hd hN hc.1 hc.2]
      rw [ih (fun x hx => hs x (by simp [hx]))]
      simp

theorem strOK_chars {s : Lc} (hs : strOK s = true) :
    ∀ c ∈ s, ¬c = '"' ∧ ¬c = '\\' := by
  intro c hc
  simp only [strOK, Bool.and_eq_true, List.all_eq_true] at hs
  have := hs.1.1 c hc
  constructor <;> intro h <;> subst h <;> simp at this

theorem strOK_not_type {s : Lc} (hs : strOK s = true) : s ≠ "type".data := by
  simp only [strOK, Bool.and_eq_true] at hs
  intro h
  rw [h] at hs
  simp at hs

theorem strOK_not_tool {s : Lc} (hs : strOK s = true) : s ≠ "tool".data := by
  simp only [strOK, Bool.and_eq_true] at hs
  intro h
  rw [h] at hs
  simp at hs

theorem strRun (s : Lc) (hs : strOK s = true) (i : Inner) (hok : innerOK i)
    (d : Int) (hd : 1 < d) (N xb : Lc) (hN : N ≠ []) :
    processChars (midState i d N xb) ('"' :: s ++ ['"']) =
      (midState (strT s i) d N xb, incEvs N ('"' :: s ++ ['"'])) ∧
    innerOK (strT s i) := by
  have hchars := strOK_chars hs
  obtain ⟨h3, hk1, hk2⟩ := hok
  obtain ⟨st, key⟩ := i
  simp only at hk1 hk2
  rcases h3 with h | h | h <;> simp only at h <;> subst h
  · -- InObject: the string is captured as a key
    simp only [List.cons_append, processChars]
    rw [stepOpenQuoteObj key d N xb hd hN]
    dsimp only
    simp only [List.append_eq]
    rw [processChars_append]
    rw [strBodyRunKey s hchars key [] d N xb hd hN]
    dsimp only
    simp only [processChars]
    rw [stepCloseQuoteKey key ([] ++ s) d N xb hd hN]
    refine ⟨by simp [strT], ?_⟩
    exact ⟨Or.inr (Or.inl rfl), by simpa using strOK_not_type hs,
      by simpa using strOK_not_tool hs⟩
  · -- Colon: the string is skipped
    simp only [List.cons_append, processChars]
    rw [stepOpenQuoteColon key d N xb hd hN]
    dsimp only
    simp only [List.append_eq]
    rw [processChars_append]
    rw [strBodyRunColon s hchars key [] d N xb hd hN]
    dsimp only
    simp only [processChars]
    rw [stepCloseQuoteColon key d N xb hd hN]
    exact ⟨by simp [strT], Or.inr (Or.inl rfl), hk1, hk2⟩
  · -- InValue: the string is a value under a safe key
    simp only [List.cons_append, processChars]
    rw [stepOpenQuoteValue key d N xb hd hN]
    dsimp only
    simp only [List.append_eq]
    rw [processChars_append]
    rw [strBodyRunValue s hchars key [] d N xb hk1 hk2 hd hN]
    dsimp only
    simp only [processChars]
    rw [stepCloseQuoteValue key d N xb hk1 hk2 hd hN]
    exact ⟨by simp [strT], Or.inl rfl, hk1, hk2⟩

theorem atomRun (s : Lc) (hs : atomOK s = true) (i : Inner) (hok : innerOK i)
    (d : Int) (hd : 1 < d) (N xb : Lc) (hN : N ≠ []) :
    processChars (midState i d N xb) s = (midState i d N xb, incEvs N s) := by
  induction s with
  | nil => simp [processChars]
  | cons c rest ih =>
      simp only [atomOK, List.all_cons, Bool.and_eq_true] at hs
      have hc := hs.1
      simp only [Bool.and_eq_true, Bool.not_eq_eq_eq_not, Bool.not_true,
        decide_eq_false_iff_not] at hc
      simp only [processChars]
      rw [stepInert i d N xb c hok hd hN
        ⟨hc.1.1.1.1.1, hc.1.1.1.1.2, hc.1.1.1.2, hc.1.1.2, hc.1.2, hc.2⟩]
      rw [ih (by simpa [atomOK] using hs.2)]
      simp

theorem colonT_ok {i : Inner} (h : innerOK i) : innerOK (colonT i) := by
  obtain ⟨h3, hk1, hk2⟩ := h
  obtain ⟨st, key⟩ := i
  simp only at hk1 hk2
  rcases h3 with h | h | h <;> simp only at h <;> subst h <;>
    exact ⟨by simp [colonT], by simpa [colonT] using hk1, by simpa [colonT] using hk2⟩

theorem runOne (sp : StreamParser) (c : Char) (sp' : StreamParser) (e : List ParseEvent)
    (h : processChar sp c = (sp', e)) : processChars sp [c] = (sp', e) := by
  simp [processChars, h]

theorem runSeq (sp : StreamParser) (a b : Lc) (spa spb : StreamParser)
    (ea eb : List ParseEvent)
    (ha : processChars sp a = (spa, ea)) (hb : processChars spa b = (spb, eb)) :
    processChars sp (a ++ b) = (spb, ea ++ eb) := by
  rw [processChars_append, ha]
  dsimp only
  rw [hb]

mutual

theorem runJVal (v : JVal) (i : Inner) (d : Int) (N xb : Lc)
    (hwf : JVal.wf v = true) (hok : innerOK i) (hd : 1 < d) (hN : N ≠ []) :
    processChars (midState i d N xb) (JVal.ser v) =
      (midState (JVal.innerT v i) d N xb, incEvs N (JVal.ser v)) ∧
    innerOK (JVal.innerT v i) := by
  cases v with
  | jstr s =>
      simp only [JVal.wf] at hwf
      simp only [JVal.ser, JVal.innerT]
      exact strRun s hwf i hok d hd N xb hN
  | jatom s =>
      simp only [JVal.wf] at hwf
      simp only [JVal.ser, JVal.innerT]
      exact ⟨atomRun s hwf i hok d hd N xb hN, hok⟩
  | jarr l =>
      simp only [JVal.wf] at hwf
      obtain ⟨hrun, hok2⟩ := runJList l i d N xb hwf hok hd hN
      have h1 := runOne _ _ _ _ (stepInert i d N xb '[' hok hd hN (by decide))
      have h3 := runOne _ _ _ _
        (stepInert (JList.innerT l i) d N xb ']' hok2 hd hN (by decide))
      have hall := runSeq _ _ _ _ _ _ _ (runSeq _ _ _ _ _ _ _ h1 hrun) h3
      refine ⟨?_, hok2⟩
      simpa [JVal.ser, JVal.innerT, List.append_assoc] using hall
  | jobj f =>
      simp only [JVal.wf] at hwf
      obtain ⟨hrun, hok2⟩ := runJFields f i (d + 1) N xb hwf hok (by omega) hN
      have h1 := runOne _ _ _ _ (stepLbrace i d N xb hok (by omega) hN)
      have h3 := runOne _ _ _ _
        (stepRbraceNested (JFields.innerT f i) (d + 1) N xb hok2 (by omega) hN)
      have hall := runSeq _ _ _ _ _ _ _ (runSeq _ _ _ _ _ _ _ h1 hrun) h3
      refine ⟨?_, hok2⟩
      have hplus : d + 1 - 1 = d := by omega
      rw [hplus] at hall
      simpa [JVal.ser, JVal.innerT, List.append_assoc] using hall

theorem runJList (l : JList) (i : Inner) (d : Int) (N xb : Lc)
    (hwf : JList.wf l = true) (hok : innerOK i) (hd : 1 < d) (hN : N ≠ []) :
    processChars (midState i d N xb) (JList.ser l) =
      (midState (JList.innerT l i) d N xb, incEvs N (JList.ser l)) ∧
    innerOK (JList.innerT l i) := by
  cases l with
  | jnil =>
      exact ⟨by simp [JList.ser, JList.innerT, processChars], by simpa [JList.innerT] using hok⟩
  | jcons v rest =>
      simp only [JList.wf, Bool.and_eq_true] at hwf
      obtain ⟨hrun1, hok1⟩ := runJVal v i d N xb hwf.1 hok hd hN
      obtain ⟨hrun2, hok2⟩ := runJListTail rest (JVal.innerT v i) d N xb hwf.2 hok1 hd hN
      have hall := runSeq _ _ _ _ _ _ _ hrun1 hrun2
      exact ⟨by simpa [JList.ser, JList.innerT] using hall,
        by simpa [JList.innerT] using hok2⟩

theorem runJListTail (l : JList) (i : Inner) (d : Int) (N xb : Lc)
    (hwf : JList.wf l = true) (hok : innerOK i) (hd : 1 < d) (hN : N ≠ []) :
    processChars (midState i d N xb) (JList.serTail l) =
      (midState (JList.innerT l i) d N xb, incEvs N (JList.serTail l)) ∧
    innerOK (JList.innerT l i) := by
  cases l with
  | jnil =>
      exact ⟨by simp [JList.serTail, JList.innerT, processChars],
        by simpa [JList.innerT] using hok⟩
  | jcons v rest =>
      simp only [JList.wf, Bool.and_eq_true] at hwf
      have h0 := runOne _ _ _ _ (stepComma i d N xb hok hd hN)
      obtain ⟨hrun1, hok1⟩ := runJVal v i d N xb hwf.1 hok hd hN
      obtain ⟨hrun2, hok2⟩ := runJListTail rest (JVal.innerT v i) d N xb hwf.2 hok1 hd hN
      have hall := runSeq _ _ _ _ _ _ _ h0 (runSeq _ _ _ _ _ _ _ hrun1 hrun2)
      exact ⟨by simpa [JList.serTail, JList.innerT] using hall,
        by simpa [JList.innerT] using hok2⟩

theorem runJFields (f : JFields) (i : Inner) (d : Int) (N xb : Lc)
    (hwf : JFields.wf f = true) (hok : innerOK i) (hd : 1 < d) (hN : N ≠ []) :
    processChars (midState i d N xb) (JFields.ser f) =
      (midState (JFields.innerT f i) d N xb, incEvs N (JFields.ser f)) ∧
    innerOK (JFields.innerT f i) := by
  cases f with
  | fnil =>
      exact ⟨by simp [JFields.ser, JFields.innerT, processChars],
        by simpa [JFields.innerT] using hok⟩
  | fcons k v rest =>
      simp only [JFields.wf, Bool.and_eq_true] at hwf
      obtain ⟨hrunK, hokK⟩ := strRun k hwf.1.1 i hok d hd N xb hN
      have hColon := runOne _ _ _ _ (stepColon (strT k i) d N xb hokK hd hN)
      obtain ⟨hrunV, hokV⟩ :=
        runJVal v (colonT (strT k i)) d N xb hwf.1.2 (colonT_ok hokK) hd hN
      obtain ⟨hrunR, hokR⟩ :=
        runJFieldsTail rest (JVal.innerT v (colonT (strT k i))) d N xb hwf.2 hokV hd hN
      have hall := runSeq _ _ _ _ _ _ _ hrunK
        (runSeq _ _ _ _ _ _ _ hColon (runSeq _ _ _ _ _ _ _ hrunV hrunR))
      refine ⟨?_, by simpa [JFields.innerT] using hokR⟩
      have hser : JFields.ser (.fcons k v rest) =
          ('"' :: k ++ ['"']) ++ ([':'] ++ (JVal.ser v ++ JFields.serTail rest)) := by
        simp [JFields.ser]
      rw [hser]
      simpa [JFields.innerT, List.append_assoc] using hall

theorem runJFieldsTail (f : JFields) (i : Inner) (d : Int) (N xb : Lc)
    (hwf : JFields.wf f = true) (hok : innerOK i) (hd : 1 < d) (hN : N ≠ []) :
    processChars (midState i d N xb) (JFields.serTail f) =
      (midState (JFields.innerT f i) d N xb, incEvs N (JFields.serTail f)) ∧
    innerOK (JFields.innerT f i) := by
  cases f with
  | fnil =>
      exact ⟨by simp [JFields.serTail, JFields.innerT, processChars],
        by simpa [JFields.innerT] using hok⟩
  | fcons k v rest =>
      simp only [JFields.wf, Bool.and_eq_true] at hwf
      have h0 := runOne _ _ _ _ (stepComma i d N xb hok hd hN)
      obtain ⟨hrunK, hokK⟩ := strRun k hwf.1.1 i hok d hd N xb hN
      have hColon := runOne _ _ _ _ (stepColon (strT k i) d N xb hokK hd hN)
      obtain ⟨hrunV, hokV⟩ :=
        runJVal v (colonT (strT k i)) d N xb hwf.1.2 (colonT_ok hokK) hd hN
      obtain ⟨hrunR, hokR⟩ :=
        runJFieldsTail rest (JVal.innerT v (colonT (strT k i))) d N xb hwf.2 hokV hd hN
      have hall := runSeq _ _ _ _ _ _ _ h0 (runSeq _ _ _ _ _ _ _ hrunK
        (runSeq _ _ _ _ _ _ _ hColon (runSeq _ _ _ _ _ _ _ hrunV hrunR)))
      refine ⟨?_, by simpa [JFields.innerT] using hokR⟩
      have hser : JFields.serTail (.fcons k v rest) =
          [','] ++ (('"' :: k ++ ['"']) ++ ([':'] ++ (JVal.ser v ++ JFields.serTail rest))) := by
        simp [JFields.serTail]
      rw [hser]
      simpa [JFields.innerT, List.append_assoc] using hall

end

theorem stepRbraceTop (i : Inner) (N xb : Lc) (hok : innerOK i) :
    processChar (midState i 1 N xb) rbrace =
      ({ midState i 1 N xb with stackDepth := 0 }, []) := by
  obtain ⟨h3, hk1, hk2⟩ := hok
  rw [processChar_json _ _ (by simpa [midState] using inner3_not_init h3)
      (by simpa [midState] using inner3_not_text h3)]
  simp [jsonStringStep, processBare, emitToolInc, midState, lbrace, rbrace]

theorem stepToolNameChar (b xb : Lc) (c : Char) (hc1 : ¬c = '"') (hc2 : ¬c = '\\') :
    processChar
        ⟨.StateInValue, "tool".data, true, false, 1, "tool_call".data, [], b, xb⟩ c =
      (⟨.StateInValue, "tool".data, true, false, 1, "tool_call".data, [], b ++ [c], xb⟩,
        []) := by
  rw [processChar_json _ _ (by simp) (by simp [ParserState.isTextState])]
  simp [jsonStringStep, processStringChar, emitToolInc, hc1, hc2]

theorem toolNameRun (n : Lc) (hn : ∀ c ∈ n, ¬c = '"' ∧ ¬c = '\\') (b xb : Lc) :
    processChars
        ⟨.StateInValue, "tool".data, true, false, 1, "tool_call".data, [], b, xb⟩ n =
      (⟨.StateInValue, "tool".data, true, false, 1, "tool_call".data, [], b ++ n, xb⟩,
        []) := by
  induction n generalizing b with
  | nil => simp [processChars]
  | cons c rest ih =>
      have hc := hn c (by simp)
      simp only [processChars]
      rw [stepToolNameChar b xb c hc.1 hc.2]
      rw [ih (fun x hx => hn x (by simp [hx])) (b ++ [c])]
      simp

theorem argsHeaderRun (N xb : Lc) :
    processChars
        ⟨.StateInValue, "tool".data, true, false, 1, "tool_call".data, [], N, xb⟩
        ("\",\"arguments\":".data) =
      (midState ⟨.StateInValue, "arguments".data⟩ 1 N xb, []) := by
  simp [processChars, processChar, jsonStringStep, processStringChar, processBare,
    processEscaped, emitToolInc, ParserState.isTextState, midState, lbrace, rbrace]

theorem topObjRun (f : JFields) (hwf : JFields.wf f = true) (N xb : Lc) (hN : N ≠ []) :
    processChars (midState ⟨.StateInValue, "arguments".data⟩ 1 N xb)
        (JVal.ser (.jobj f)) =
      (midState
          ⟨.StateInObject, (JFields.innerT f ⟨.StateInValue, "arguments".data⟩).key⟩
          1 N xb,
        incEvs N (JVal.ser (.jobj f))) ∧
    innerOK
      ⟨.StateInObject, (JFields.innerT f ⟨.StateInValue, "arguments".data⟩).key⟩ := by
  have hok0 : innerOK ⟨.StateInValue, "arguments".data⟩ :=
    ⟨Or.inr (Or.inr rfl), by decide, by decide⟩
  obtain ⟨hrun, hok2⟩ :=
    runJFields f ⟨.StateInValue, "arguments".data⟩ 2 N xb hwf hok0 (by omega) hN
  have h1 := runOne _ _ _ _ (stepLbrace ⟨.StateInValue, "arguments".data⟩ 1 N xb hok0
    (by omega) hN)
  have hone : (1 : Int) + 1 = 2 := by omega
  rw [hone] at h1
  have h3 := runOne _ _ _ _
    (stepRbraceClose (JFields.innerT f ⟨.StateInValue, "arguments".data⟩) N xb hok2 hN)
  have hall := runSeq _ _ _ _ _ _ _ h1 (runSeq _ _ _ _ _ _ _ hrun h3)
  refine ⟨?_, Or.inl rfl, hok2.2.1, hok2.2.2⟩
  simpa [JVal.ser, List.append_assoc] using hall

theorem eventConcat_incEvs (N cs : Lc) :
    eventConcat "tool_call_inc".data (incEvs N cs) = cs := by
  induction cs with
  | nil => rfl
  | cons c rest ih => simpa [eventConcat, incEvs] using ih

/-- The reply carrying one JSON-mode tool call: type, tool name and an
arguments object, in the order the tool prompt requires. -/
def replyToolCall (N : Lc) (f : JFields) : Lc :=
  (lbrace :: "\"type\":\"tool_call\",\"tool\":\"".data) ++
    (N ++ ("\",\"arguments\":".data ++ (JVal.ser (.jobj f) ++ [rbrace])))

/-- Claim C1 (amended): for every reply
`(lbrace)"type":"tool_call","tool":N,"arguments":A(rbrace)` whose arguments
object `A` is built from strings, atoms, arrays and objects such that no
string literal of `A` contains a quote or backslash or reads exactly `type`
or `tool`, and whose tool name `N` is non-empty and quote/backslash-free,
and for every partition of the reply into chunks, the `tool_call_inc`
events produced by `StreamParser.Process` are exactly one event per
character of the serialization of `A`, in order, each carrying `Tool = N`;
hence their concatenated contents are byte-for-byte the serialization of
`A`. -/
theorem C1_tool_call_streaming_amended (N : Lc) (hN : N ≠ [])
    (hNsafe : ∀ c ∈ N, ¬c = '"' ∧ ¬c = '\\')
    (f : JFields) (hwf : JFields.wf f = true)
    (chunks : List Lc) (hjoin : chunks.flatten = replyToolCall N f) :
    (processChunks NewStreamParser chunks).2 = incEvs N (JVal.ser (.jobj f)) ∧
    eventConcat "tool_call_inc".data (processChunks NewStreamParser chunks).2
      = JVal.ser (.jobj f) ∧
    ∀ e ∈ (processChunks NewStreamParser chunks).2, e.Tool = N := by
  have h1 : processChars NewStreamParser
      (lbrace :: "\"type\":\"tool_call\",\"tool\":\"".data) =
      (⟨.StateInValue, "tool".data, true, false, 1, "tool_call".data, [], [], []⟩,
        []) := by decide
  have h2 := toolNameRun N hNsafe [] []
  rw [List.nil_append] at h2
  have h3 := argsHeaderRun N []
  obtain ⟨h4, hok4⟩ := topObjRun f hwf N [] hN
  have h5 := runOne _ _ _ _
    (stepRbraceTop
      ⟨.StateInObject, (JFields.innerT f ⟨.StateInValue, "arguments".data⟩).key⟩
      N [] hok4)
  have hall := runSeq _ _ _ _ _ _ _ h1 (runSeq _ _ _ _ _ _ _ h2
    (runSeq _ _ _ _ _ _ _ h3 (runSeq _ _ _ _ _ _ _ h4 h5)))
  have hev : (processChunks NewStreamParser chunks).2
      = incEvs N (JVal.ser (.jobj f)) := by
    rw [processChunks_join, hjoin, replyToolCall, hall]
    simp
  refine ⟨hev, ?_, ?_⟩
  · rw [hev, eventConcat_incEvs]
  · rw [hev]
    intro e he
    simp [incEvs] at he
    obtain ⟨c, -, he⟩ := he
    rw [← he]

/-- Concrete instantiation of the amended C1 theorem on the chunking of the
repository's own test `TestStreamParser_Process_ToolCall`. -/
theorem C1_tool_call_streaming_amended_witness :
    eventConcat "tool_call_inc".data
      (processChunks NewStreamParser
        [lbrace :: "\"type\":\"tool_call\",\"tool\":\"get_weather\",\"arguments\":".data
           ++ lbrace :: "\"ci".data,
         "ty\":\"Paris\"".data ++ [rbrace, rbrace]]).2
      = JVal.ser (.jobj (.fcons "city".data (.jstr "Paris".data) .fnil)) :=
  (C1_tool_call_streaming_amended "get_weather".data (by decide) (by decide)
    (.fcons "city".data (.jstr "Paris".data) .fnil) (by decide)
    [lbrace :: "\"type\":\"tool_call\",\"tool\":\"get_weather\",\"arguments\":".data
       ++ lbrace :: "\"ci".data,
     "ty\":\"Paris\"".data ++ [rbrace, rbrace]] (by decide)).2.1

/-! Escape handling inside a `(lbrace)"type":"response","content":"…"(rbrace)`
reply: the content string is a sequence of tokens, each either a plain
character or one of the eight JSON escape pairs. -/

inductive CTok where
  | raw : Char → CTok
  | esc : Char → CTok
deriving DecidableEq

/-- Characters a token contributes to the reply. -/
def CTok.chars : CTok → Lc
  | .raw c => [c]
  | .esc c => ['\\', c]

/-- Well-formedness: a raw character is neither quote nor backslash; an
escape pair uses one of the eight escapes the source handles. -/
def CTok.wfB : CTok → Bool
  | .raw c => !(c = '"' : Bool) && !(c = '\\' : Bool)
  | .esc c => ['n', 'r', 't', '"', '\\', '/', 'b', 'f'].contains c

/-- The JSON-unescaped value of a token (the specification side of the
escape table). -/
def CTok.unesc : CTok → Lc
  | .raw c => [c]
  | .esc c =>
      if c = 'n' then ['\n']
      else if c = 'r' then ['\r']
      else if c = 't' then ['\t']
      else if c = '"' then ['"']
      else if c = '\\' then ['\\']
      else if c = '/' then ['/']
      else if c = 'b' then ['\x08']
      else if c = 'f' then ['\x0c']
      else ['?']

/-- Reply characters of a token list. -/
def serToks (ts : List CTok) : Lc := (ts.map CTok.chars).flatten

/-- Unescaped content of a token list. -/
def unescToks (ts : List CTok) : Lc := (ts.map CTok.unesc).flatten

/-- Parser state immediately after `(lbrace)"type":"response","content":"`. -/
def contentState : StreamParser :=
  ⟨.StateInValue, "content".data, true, false, 1, "response".data, [], [], []⟩

theorem stepContentRaw (c : Char) (hc1 : ¬c = '"') (hc2 : ¬c = '\\') :
    processChar contentState c =
      (contentState, [{ Ty := "content".data, Content := [c], Tool := [] }]) := by
  rw [processChar_json _ _ (by simp [contentState])
      (by simp [contentState, ParserState.isTextState])]
  simp [jsonStringStep, processStringChar, emitToolInc, contentState, hc1, hc2]

/-- Parser state inside the content string right after a backslash. -/
def contentStateEsc : StreamParser :=
  ⟨.StateInValue, "content".data, true, true, 1, "response".data, [], [], []⟩

theorem stepContentBackslash :
    processChar contentState '\\' = (contentStateEsc, []) := by
  rw [processChar_json _ _ (by simp [contentState])
      (by simp [contentState, ParserState.isTextState])]
  simp [jsonStringStep, processStringChar, emitToolInc, contentState, contentStateEsc]

theorem stepContentEsc (c : Char) :
    processChar contentStateEsc c =
      (contentState,
        [{ Ty := "content".data, Content := unescapeChar c, Tool := [] }]) := by
  rw [processChar_json _ _ (by simp [contentStateEsc])
      (by simp [contentStateEsc, ParserState.isTextState])]
  simp [jsonStringStep, processEscaped, emitToolInc, contentState, contentStateEsc]

theorem tokRun (t : CTok) (hwf : CTok.wfB t = true) :
    processChars contentState t.chars =
      (contentState, [{ Ty := "content".data, Content := t.unesc, Tool := [] }]) := by
  cases t with
  | raw c =>
      simp only [CTok.wfB, Bool.and_eq_true, Bool.not_eq_eq_eq_not, Bool.not_true,
        decide_eq_false_iff_not] at hwf
      exact runOne _ _ _ _ (stepContentRaw c hwf.1 hwf.2)
  | esc c =>
      simp only [CTok.chars, processChars]
      rw [stepContentBackslash]
      dsimp only
      rw [stepContentEsc c]
      simp only [CTok.wfB] at hwf
      rw [List.contains_iff_exists_mem_beq] at hwf
      obtain ⟨a, ha, hb⟩ := hwf
      have hc : c = a := eq_of_beq hb
      subst hc
      simp only [List.mem_cons, List.not_mem_nil, or_false] at ha
      rcases ha with h | h | h | h | h | h | h | h <;> subst h <;> rfl

theorem toksRun (ts : List CTok) (hwf : ∀ t ∈ ts, CTok.wfB t = true) :
    processChars contentState (serToks ts) =
      (contentState,
        ts.map (fun t => { Ty := "content".data, Content := t.unesc, Tool := [] })) := by
  induction ts with
  | nil => simp [serToks, processChars]
  | cons t rest ih =>
      have h1 := tokRun t (hwf t (by simp))
      have h2 := ih (fun x hx => hwf x (by simp [hx]))
      have := runSeq _ _ _ _ _ _ _ h1 h2
      simpa [serToks] using this

/-- The full `response` reply over a token list. -/
def replyResponse (ts : List CTok) : Lc :=
  (lbrace :: "\"type\":\"response\",\"content\":\"".data) ++
    (serToks ts ++ ('"' :: [rbrace]))

theorem eventConcat_contentMap (ts : List CTok) :
    eventConcat "content".data
      (ts.map (fun t => { Ty := "content".data, Content := t.unesc, Tool := [] }))
      = unescToks ts := by
  induction ts with
  | nil => rfl
  | cons t rest ih => simpa [eventConcat, unescToks] using ih

/-- Claim C8: for every streamed tool-use reply
`(lbrace)"type":"response","content":S(rbrace)` in which the string `S` is
built from plain characters and the eight JSON escapes handled by the
source (`\n \r \t \" \\ \/ \b \f`), and for every partition of the reply
into chunks, the concatenation of the `content` events emitted by the
streaming parser equals exactly the unescaped value of `S`. -/
theorem C8_escape_handling (ts : List CTok) (hwf : ∀ t ∈ ts, CTok.wfB t = true)
    (chunks : List Lc) (hjoin : chunks.flatten = replyResponse ts) :
    eventConcat "content".data (processChunks NewStreamParser chunks).2
      = unescToks ts := by
  have h1 : processChars NewStreamParser
      (lbrace :: "\"type\":\"response\",\"content\":\"".data) =
      (contentState, []) := by decide
  have h2 := toksRun ts hwf
  have h3 : processChars contentState ('"' :: [rbrace]) =
      (⟨.StateInObject, "content".data, false, false, 0, "response".data, [], [], []⟩,
        []) := by decide
  have hall := runSeq _ _ _ _ _ _ _ h1 (runSeq _ _ _ _ _ _ _ h2 h3)
  rw [processChunks_join, hjoin, replyResponse, hall]
  simpa using eventConcat_contentMap ts

/-- Concrete instantiation of the C8 theorem: the reply
`(lbrace)"type":"response","content":"H(backslash)ni"(rbrace)` unescapes to
`H`, newline, `i`. -/
theorem C8_escape_handling_witness :
    eventConcat "content".data
      (processChunks NewStreamParser
        [replyResponse [.raw 'H', .esc 'n', .raw 'i']]).2
      = ['H', '\n', 'i'] :=
  C8_escape_handling [.raw 'H', .esc 'n', .raw 'i'] (by decide)
    [replyResponse [.raw 'H', .esc 'n', .raw 'i']] (by simp)

end tooluse

namespace controller

open tooluse in
/-- Parsed upstream data-line events as dispatched by `processStreamData`
(src/controller/chat.go): project start, message-field updates, the
terminal `message_result` (carrying its raw `content` string and, when that
string parses as JSON with a `detailAnswer` field, that field), and lines
of other types. -/
inductive UpEvent where
  | projectStart (id : Lc)
  | fieldEvent (isDelta : Bool) (fieldName : Lc) (delta : Option Lc) (fieldValue : Option Lc)
  | messageResult (content : Lc) (detailAnswer : Option Lc)
  | unknown
deriving DecidableEq

/-- One streamed `chat.completion.chunk` as the handlers build it: the
delta fields, the finish reason, whether a usage object is attached (token
counts are computed by the out-of-scope counter and abstracted to
presence), and whether the chunk carries an empty `choices` array. -/
structure StreamChunk where
  content : Lc := []
  reasoningContent : Lc := []
  role : Lc := []
  toolCallId : Lc := []
  toolCallName : Lc := []
  toolCallArgs : Lc := []
  hasToolCall : Bool := false
  finishReason : Option Lc := none
  usagePresent : Bool := false
  choicesEmpty : Bool := false
deriving DecidableEq

/-- Items written to the SSE response: chunks and the literal ` [DONE]`
sentinel line. -/
inductive SSEItem where
  | chunk (c : StreamChunk)
  | done
deriving DecidableEq

/-- `createStreamResponse` (chat.go): a usage object is attached to a chunk
exactly when it carries a finish reason. -/
def createStreamResponse (delta : StreamChunk) (finishReason : Option Lc) : StreamChunk :=
  { delta with finishReason := finishReason, usagePresent := finishReason.isSome }

/-- Delta selection of `handleMessageFieldDelta`: prefer a non-empty
`delta` string, else fall back to a string `field_value`, else empty. -/
def chooseDelta (delta fieldValue : Option Lc) : Lc :=
  match delta with
  | some d => if d.length > 0 then d else fieldValue.getD []
  | none => fieldValue.getD []

/-- `handleMessageFieldDelta` (chat.go lines 631-730): the chunk emitted
for one field event, or `none` when the event is skipped.  `reasoningHide`
is `config.ReasoningHide`. -/
def handleMessageFieldDelta (reasoningHide : Nat) (fieldName : Lc)
    (delta fieldValue : Option Lc) : Option StreamChunk :=
  if ¬((fieldName = "session_state.answer".data ∨
        containsL fieldName "session_state.streaming_detail_answer".data = true ∨
        fieldName = "session_state.streaming_markmap".data ∨
        hasPrefixL fieldName "session_state.layer_".data = true) ∨
       (reasoningHide ≠ 1 ∧
         (fieldName = "session_state.answerthink".data ∨
          fieldName = "session_state.answerthink_is_started".data ∨
          fieldName = "session_state.answerthink_is_finished".data))) then none
  else if reasoningHide ≠ 1 ∧ fieldName = "session_state.answerthink_is_started".data then
    none
  else if reasoningHide ≠ 1 ∧ fieldName = "session_state.answerthink".data then
    some (createStreamResponse
      { reasoningContent := chooseDelta delta fieldValue, role := "assistant".data } none)
  else if reasoningHide ≠ 1 ∧ fieldName = "session_state.answerthink_is_finished".data then
    none
  else if hasPrefixL fieldName "session_state.layer_".data then
    some (createStreamResponse
      { reasoningContent := chooseDelta delta fieldValue, role := "assistant".data } none)
  else
    some (createStreamResponse
      { content := chooseDelta delta fieldValue, role := "assistant".data } none)

/-- `handleMessageResult` (chat.go lines 753-772): the final choice chunk
(carrying the usage object, since `createStreamResponse` attaches usage to
every chunk with a finish reason) immediately followed by the ` [DONE]`
sentinel.  In the `o1`-with-search case the chunk content is the
`detailAnswer` extracted from the result content; if that extraction fails
the handler returns without emitting anything. -/
def handleMessageResult (modelName : Lc) (searchModel : Bool)
    (detailAnswer : Option Lc) : List SSEItem :=
  if modelName = "o1".data ∧ searchModel = true then
    match detailAnswer with
    | none => []
    | some d =>
        [.chunk (createStreamResponse { content := d, role := "assistant".data }
          (some "stop".data)), .done]
  else
    [.chunk (createStreamResponse { content := [], role := "assistant".data }
      (some "stop".data)), .done]

/-- Emission behaviour of one attempt of `handleStreamRequest` together
with `processStreamData` (chat.go lines 1002-1108, 1205-1271), for data
lines already classified as ordinary events (no credential-fault and no
fatal lines).  A `message_result` ends the turn; if the channel closes
without one, the handler sends the trailing usage chunk with an empty
`choices` array. -/
def handleStreamTurn (reasoningHide : Nat) (modelName : Lc) (searchModel : Bool) :
    List UpEvent → List SSEItem
  | [] => [.chunk { usagePresent := true, choicesEmpty := true }]
  | .projectStart _ :: rest => handleStreamTurn reasoningHide modelName searchModel rest
  | .fieldEvent _ fieldName delta fieldValue :: rest =>
      match handleMessageFieldDelta reasoningHide fieldName delta fieldValue with
      | some c => .chunk c :: handleStreamTurn reasoningHide modelName searchModel rest
      | none => handleStreamTurn reasoningHide modelName searchModel rest
  | .messageResult _ dA :: _ => handleMessageResult modelName searchModel dA
  | .unknown :: rest => handleStreamTurn reasoningHide modelName searchModel rest

/-- Content/reasoning accumulation of one attempt of
`handleNonStreamRequest` (chat.go lines 1418-1545): only
`session_state.answer` and `session_state.streaming_detail_answer*` deltas
are appended; `message_field` whole values replace the content only for
`o1` / `o3-mini-high` on `session_state.answer`; at `message_result` an
empty accumulation falls back to the (trimmed) result content, or to its
`detailAnswer` for `o1` with search. -/
def handleNonStreamContent (modelName : Lc) (searchModel : Bool) :
    List UpEvent → Lc → Lc
  | [], acc => acc
  | .projectStart _ :: rest, acc => handleNonStreamContent modelName searchModel rest acc
  | .fieldEvent isDelta fieldName delta fieldValue :: rest, acc =>
      let acc :=
        if isDelta then
          let acc := if fieldName = "session_state.answer".data then
              acc ++ delta.getD [] else acc
          let acc := if containsL fieldName "session_state.streaming_detail_answer".data then
              acc ++ delta.getD [] else acc
          acc
        else
          if (modelName = "o1".data ∨ modelName = "o3-mini-high".data) ∧
              fieldName = "session_state.answer".data then
            fieldValue.getD []
          else acc
      handleNonStreamContent modelName searchModel rest acc
  | .messageResult c dA :: rest, acc =>
      let acc :=
        if acc = [] then
          if modelName = "o1".data ∧ searchModel = true then dA.getD []
          else trimL c
        else acc
      handleNonStreamContent modelName searchModel rest acc
  | .unknown :: rest, acc => handleNonStreamContent modelName searchModel rest acc

/-- Concatenated `delta.content` of a list of SSE items. -/
def itemsContent (items : List SSEItem) : Lc :=
  (items.map (fun it => match it with | .chunk c => c.content | .done => [])).flatten

theorem itemsContent_cons (it : SSEItem) (l : List SSEItem) :
    itemsContent (it :: l) =
      (match it with | .chunk c => c.content | .done => []) ++ itemsContent l := rfl

/-- A field name routed to `content` by the translator: one of the three
content-bearing patterns, not shadowed by the `session_state.layer_`
reasoning routing. -/
def contentFieldOk (f : Lc) : Prop :=
  (f = "session_state.answer".data ∨
   containsL f "session_state.streaming_detail_answer".data = true ∨
   f = "session_state.streaming_markmap".data) ∧
  hasPrefixL f "session_state.layer_".data = false

theorem handleMessageFieldDelta_content (reasoningHide : Nat) (f : Lc)
    (hf : contentFieldOk f) (delta fieldValue : Option Lc) :
    handleMessageFieldDelta reasoningHide f delta fieldValue =
      some (createStreamResponse
        { content := chooseDelta delta fieldValue, role := "assistant".data } none) := by
  obtain ⟨h1, h2⟩ := hf
  have hnt1 : f ≠ "session_state.answerthink".data := by
    rcases h1 with h | h | h <;> (intro hx; rw [hx] at h; revert h; decide)
  have hnt2 : f ≠ "session_state.answerthink_is_started".data := by
    rcases h1 with h | h | h <;> (intro hx; rw [hx] at h; revert h; decide)
  have hnt3 : f ≠ "session_state.answerthink_is_finished".data := by
    rcases h1 with h | h | h <;> (intro hx; rw [hx] at h; revert h; decide)
  have hb0 : f = "session_state.answer".data ∨
      containsL f "session_state.streaming_detail_answer".data = true ∨
      f = "session_state.streaming_markmap".data ∨
      hasPrefixL f "session_state.layer_".data = true := by
    rcases h1 with h | h | h
    · exact Or.inl h
    · exact Or.inr (Or.inl h)
    · exact Or.inr (Or.inr (Or.inl h))
  unfold handleMessageFieldDelta
  rw [if_neg (not_not_intro (Or.inl hb0))]
  rw [if_neg (fun hx => hnt2 hx.2)]
  rw [if_neg (fun hx => hnt1 hx.2)]
  rw [if_neg (fun hx => hnt3 hx.2)]
  rw [if_neg (by simp [h2])]

/-- Discriminator for terminal events. -/
def UpEvent.isResult : UpEvent → Bool
  | .messageResult _ _ => true
  | _ => false

/-- Field-event data used to quantify over content-field sequences. -/
structure FieldSpec where
  isDelta : Bool
  fieldName : Lc
  delta : Option Lc
  fieldValue : Option Lc
deriving DecidableEq

/-- The upstream event of a field specification. -/
def FieldSpec.toEvent (e : FieldSpec) : UpEvent :=
  .fieldEvent e.isDelta e.fieldName e.delta e.fieldValue

/-- The content contribution of one field event in the non-streaming
accumulator. -/
def nsContribution (modelName : Lc) (e : FieldSpec) : Lc :=
  if e.isDelta then
    (if e.fieldName = "session_state.answer".data then e.delta.getD [] else []) ++
    (if containsL e.fieldName "session_state.streaming_detail_answer".data then
      e.delta.getD [] else [])
  else []

theorem ns_acc_step (modelName : Lc)
    (hm : ¬(modelName = "o1".data ∨ modelName = "o3-mini-high".data))
    (iD : Bool) (f : Lc) (d fv : Option Lc) (acc : Lc) :
    (if iD then
       (if containsL f "session_state.streaming_detail_answer".data then
          (if f = "session_state.answer".data then acc ++ d.getD [] else acc)
            ++ d.getD []
        else (if f = "session_state.answer".data then acc ++ d.getD [] else acc))
     else if (modelName = "o1".data ∨ modelName = "o3-mini-high".data) ∧
         f = "session_state.answer".data then fv.getD [] else acc)
    = acc ++ nsContribution modelName ⟨iD, f, d, fv⟩ := by
  cases iD
  · simp only [Bool.false_eq_true, if_false, ite_false, nsContribution]
    rw [if_neg (fun hx => hm hx.1)]
    simp
  · simp only [ite_true, nsContribution]
    by_cases h1 : f = "session_state.answer".data
    · subst h1
      have hc : containsL "session_state.answer".data
          "session_state.streaming_detail_answer".data = false := by decide
      simp [hc, List.append_assoc]
    · by_cases h2 : containsL f "session_state.streaming_detail_answer".data = true
      · simp [h1, h2, List.append_assoc]
      · simp [h1, h2]

theorem handleNonStreamContent_fold (modelName : Lc) (fes : List FieldSpec)
    (hm : ¬(modelName = "o1".data ∨ modelName = "o3-mini-high".data)) (rc : Lc) :
    ∀ acc, handleNonStreamContent modelName false
        (fes.map FieldSpec.toEvent ++ [.messageResult rc none]) acc =
      (if acc ++ (fes.map (nsContribution modelName)).flatten = [] then trimL rc
       else acc ++ (fes.map (nsContribution modelName)).flatten) := by
  induction fes with
  | nil =>
      intro acc
      simp only [List.map_nil, List.nil_append, handleNonStreamContent,
        List.flatten_nil, List.append_nil]
      by_cases ha : acc = [] <;> simp [ha, handleNonStreamContent]
  | cons e rest ih =>
      intro acc
      obtain ⟨iD, f, d, fv⟩ := e
      simp only [List.map_cons, List.cons_append, FieldSpec.toEvent,
        handleNonStreamContent, List.append_eq]
      rw [ih, ns_acc_step modelName hm iD f d fv acc]
      simp [List.append_assoc]

/-- Claim C2 (amended): over any sequence of field events on the
content-bearing fields followed by a `message_result`, (a) the streaming
path emits one `delta.content` chunk per event whose concatenation is
exactly the concatenation of the per-event chosen deltas (delta preferred,
whole `field_value` otherwise), but (b) the non-streaming path accumulates
only `session_state.answer` and `session_state.streaming_detail_answer*`
deltas of `message_field_delta` events — `streaming_markmap` deltas and
whole-field `message_field` values are dropped (outside the
`o1`/`o3-mini-high` whole-answer special case) — falling back to the
trimmed `message_result` content when nothing accumulated. -/
theorem C2_roundtrip_amended (reasoningHide : Nat) (modelName : Lc)
    (fes : List FieldSpec) (hf : ∀ e ∈ fes, contentFieldOk e.fieldName)
    (hm : ¬(modelName = "o1".data ∨ modelName = "o3-mini-high".data)) (rc : Lc) :
    itemsContent (handleStreamTurn reasoningHide modelName false
        (fes.map FieldSpec.toEvent ++ [.messageResult rc none]))
      = (fes.map (fun e => chooseDelta e.delta e.fieldValue)).flatten ∧
    handleNonStreamContent modelName false
        (fes.map FieldSpec.toEvent ++ [.messageResult rc none]) []
      = (if (fes.map (nsContribution modelName)).flatten = [] then trimL rc
         else (fes.map (nsContribution modelName)).flatten) := by
  constructor
  · revert hf
    induction fes with
    | nil =>
        intro _
        simp [handleStreamTurn, handleMessageResult, itemsContent,
          createStreamResponse]
    | cons e rest ih =>
        intro hf
        simp only [List.map_cons, List.cons_append, FieldSpec.toEvent,
          handleStreamTurn, List.append_eq]
        rw [handleMessageFieldDelta_content reasoningHide e.fieldName
          (hf e (by simp)) e.delta e.fieldValue]
        simp only [itemsContent_cons, List.map_cons, List.flatten_cons]
        rw [ih (fun x hx => hf x (by simp [hx]))]
        simp [createStreamResponse]
  · simpa using handleNonStreamContent_fold modelName fes hm rc []

theorem C2_roundtrip_amended_witness :
    itemsContent (handleStreamTurn 1 "m".data false
        (([⟨true, "session_state.answer".data, some "A".data, none⟩] :
            List FieldSpec).map FieldSpec.toEvent ++ [.messageResult "r".data none]))
      = (([⟨true, "session_state.answer".data, some "A".data, none⟩] :
            List FieldSpec).map (fun e => chooseDelta e.delta e.fieldValue)).flatten ∧
    handleNonStreamContent "m".data false
        (([⟨true, "session_state.answer".data, some "A".data, none⟩] :
            List FieldSpec).map FieldSpec.toEvent ++ [.messageResult "r".data none]) []
      = (if (([⟨true, "session_state.answer".data, some "A".data, none⟩] :
            List FieldSpec).map (nsContribution "m".data)).flatten = [] then
          trimL "r".data
         else (([⟨true, "session_state.answer".data, some "A".data, none⟩] :
            List FieldSpec).map (nsContribution "m".data)).flatten) :=
  C2_roundtrip_amended 1 "m".data
    [⟨true, "session_state.answer".data, some "A".data, none⟩]
    (by
      intro e he
      simp only [List.mem_singleton] at he
      subst he
      constructor
      · exact Or.inl rfl
      · decide)
    (by decide) "r".data

/-- Claim C2 as frozen is false: for the event sequence carrying a
`streaming_markmap` delta `X` and an `answer` delta `Y`, the streaming path
emits `XY` while the non-streaming path accumulates only `Y`, so the two
content projections cannot both equal the total answer text. -/
theorem C2_counterexample :
    ¬ (itemsContent (handleStreamTurn 1 "m".data false
        [.fieldEvent true "session_state.streaming_markmap".data (some "X".data) none,
         .fieldEvent true "session_state.answer".data (some "Y".data) none,
         .messageResult [] none])
      = handleNonStreamContent "m".data false
        [.fieldEvent true "session_state.streaming_markmap".data (some "X".data) none,
         .fieldEvent true "session_state.answer".data (some "Y".data) none,
         .messageResult [] none] []) := by decide

/-- The per-parser-event emission loop of `handleToolUseStreamRequest`
(chat.go lines 2461-2522): `content` events become content chunks,
`tool_call_inc` events become tool-call delta chunks (id/name only on the
first one), other event types are ignored.  Returns the emitted items and
the updated `toolCallSent` flag. -/
def emitParserEvents (toolCallID : Lc) : Bool → List tooluse.ParseEvent →
    List SSEItem × Bool
  | sent, [] => ([], sent)
  | sent, p :: rest =>
      if p.Ty = "content".data then
        let r := emitParserEvents toolCallID sent rest
        (.chunk { role := "assistant".data, content := p.Content } :: r.1, r.2)
      else if p.Ty = "tool_call_inc".data then
        let item : SSEItem :=
          if sent then
            .chunk { role := "assistant".data, hasToolCall := true,
                     toolCallArgs := p.Content }
          else
            .chunk { role := "assistant".data, hasToolCall := true,
                     toolCallId := toolCallID, toolCallName := p.Tool,
                     toolCallArgs := p.Content }
        let r := emitParserEvents toolCallID true rest
        (item :: r.1, r.2)
      else
        emitParserEvents toolCallID sent rest

/-- The event loop of `handleToolUseStreamRequest` (chat.go lines
2426-2524) on ordinary events: content-bearing field deltas are fed to the
incremental tool-call parser and its events emitted; layer/answerthink
deltas are streamed as reasoning chunks; `project_start` and
`message_result` emit nothing (a `message_result` does not end this loop).
Returns the emitted items and the final parser. -/
def toolUseStreamEvents (reasoningHide : Nat) (toolCallID : Lc) :
    List UpEvent → tooluse.StreamParser → Bool →
    List SSEItem × tooluse.StreamParser × Bool
  | [], psr, sent => ([], psr, sent)
  | .fieldEvent _ fieldName delta fieldValue :: rest, psr, sent =>
      if fieldName = "session_state.answer".data ∨
         containsL fieldName "session_state.streaming_detail_answer".data = true ∨
         fieldName = "content".data then
        (if h : chooseDelta delta fieldValue = [] then
          toolUseStreamEvents reasoningHide toolCallID rest psr sent
        else
          let pr := tooluse.processChars psr (chooseDelta delta fieldValue)
          let em := emitParserEvents toolCallID sent pr.2
          let r := toolUseStreamEvents reasoningHide toolCallID rest pr.1 em.2
          (em.1 ++ r.1, r.2))
      else if hasPrefixL fieldName "session_state.layer_".data = true ∨
          (reasoningHide ≠ 1 ∧ fieldName = "session_state.answerthink".data) then
        let r := toolUseStreamEvents reasoningHide toolCallID rest psr sent
        (.chunk { role := "assistant".data,
                  reasoningContent := chooseDelta delta fieldValue } :: r.1, r.2)
      else
        toolUseStreamEvents reasoningHide toolCallID rest psr sent
  | _ :: rest, psr, sent =>
      toolUseStreamEvents reasoningHide toolCallID rest psr sent

/-- One successful attempt of `handleToolUseStreamRequest` (chat.go lines
2320-2583, no credential fault): the loop's emissions, then a bare finish
chunk whose `finish_reason` is `tool_calls` iff the parser saw a tool call
(no usage on it), then a separate usage chunk with an empty `choices`
array, then the `[DONE]` sentinel. -/
def handleToolUseStreamTurn (reasoningHide : Nat) (toolCallID : Lc)
    (events : List UpEvent) : List SSEItem :=
  let r := toolUseStreamEvents reasoningHide toolCallID events
    tooluse.NewStreamParser false
  let fin : Lc := if r.2.1.ResponseType = "tool_call".data then
    "tool_calls".data else "stop".data
  r.1 ++ [.chunk { finishReason := some fin },
          .chunk { usagePresent := true, choicesEmpty := true }, .done]

/-- The terminal shape claimed for every streaming turn: a finish-reason
chunk, then a separate usage chunk, then the `[DONE]` sentinel. -/
def c3ClaimedTail (items : List SSEItem) : Bool :=
  match items.reverse with
  | .done :: .chunk cu :: .chunk cf :: _ =>
      ((cf.finishReason == some "stop".data) ||
       (cf.finishReason == some "tool_calls".data)) && cu.usagePresent
  | _ => false

/-- Terminal shape of the no-tools streaming path: one final chunk
carrying both `finish_reason = "stop"` and the usage object, then
`[DONE]`. -/
def c3AmendedNoToolTail (items : List SSEItem) : Bool :=
  match items.reverse with
  | .done :: .chunk cf :: _ =>
      (cf.finishReason == some "stop".data) && cf.usagePresent
  | _ => false

/-- Terminal shape of the tool-use streaming path: a usage-free finish
chunk, then a usage chunk with empty `choices`, then `[DONE]`. -/
def c3AmendedToolTail (items : List SSEItem) : Bool :=
  match items.reverse with
  | .done :: .chunk cu :: .chunk cf :: _ =>
      ((cf.finishReason == some "stop".data) ||
       (cf.finishReason == some "tool_calls".data)) &&
      !cf.usagePresent && cu.usagePresent && cu.choicesEmpty
  | _ => false

/-- `true` exactly on the `[DONE]` sentinel item. -/
def SSEItem.isDone : SSEItem → Bool
  | .done => true
  | .chunk _ => false

theorem handleStreamTurn_result_split (reasoningHide : Nat) (modelName : Lc)
    (searchModel : Bool) (pre : List UpEvent)
    (hpre : ∀ e ∈ pre, UpEvent.isResult e = false) (rc : Lc) (dA : Option Lc) :
    ∃ body, handleStreamTurn reasoningHide modelName searchModel
        (pre ++ [.messageResult rc dA]) =
      body ++ handleMessageResult modelName searchModel dA ∧
      body.all (fun it => ! SSEItem.isDone it) = true := by
  revert hpre
  induction pre with
  | nil =>
      intro _
      exact ⟨[], rfl, rfl⟩
  | cons e rest ih =>
      intro hpre
      obtain ⟨body, hb, hall⟩ := ih (fun x hx => hpre x (by simp [hx]))
      cases e with
      | projectStart p =>
          exact ⟨body, by simpa [handleStreamTurn] using hb, hall⟩
      | unknown =>
          exact ⟨body, by simpa [handleStreamTurn] using hb, hall⟩
      | messageResult c d =>
          have hcontra := hpre (UpEvent.messageResult c d) (by simp)
          simp [UpEvent.isResult] at hcontra
      | fieldEvent iD f d fv =>
          simp only [List.cons_append, handleStreamTurn]
          cases hmf : handleMessageFieldDelta reasoningHide f d fv with
          | none => exact ⟨body, hb, hall⟩
          | some ch =>
              refine ⟨.chunk ch :: body, by simp [hb], ?_⟩
              rw [List.all_cons]
              simp only [SSEItem.isDone, Bool.not_false, Bool.true_and]
              exact hall

theorem c3_shape_noTool (body : List SSEItem) (cf : StreamChunk)
    (h1 : cf.finishReason = some "stop".data) (h2 : cf.usagePresent = true) :
    c3AmendedNoToolTail (body ++ [.chunk cf, .done]) = true := by
  simp [c3AmendedNoToolTail, List.reverse_append, h1, h2]

theorem c3_tail_false_of_no_done (body : List SSEItem)
    (h : body.all (fun it => ! SSEItem.isDone it) = true) :
    c3AmendedNoToolTail body = false := by
  unfold c3AmendedNoToolTail
  cases hrev : body.reverse with
  | nil => rfl
  | cons x rest =>
      cases x with
      | chunk c => rfl
      | done =>
          have hx : SSEItem.done ∈ body := by
            rw [← List.mem_reverse, hrev]
            simp
          have := List.all_eq_true.mp h SSEItem.done hx
          simp [SSEItem.isDone] at this

theorem c3_shape_tool (body : List SSEItem) (fin : Lc)
    (h : fin = "stop".data ∨ fin = "tool_calls".data) :
    c3AmendedToolTail (body ++
      [.chunk { finishReason := some fin },
       .chunk { usagePresent := true, choicesEmpty := true }, .done]) = true := by
  rcases h with h | h <;> subst h <;>
    simp [c3AmendedToolTail, List.reverse_append]

/-- Claim C3 (amended): (a) in the no-tools streaming path, a turn ending
in a `message_result` terminates with a single final chunk that carries
`finish_reason = "stop"` together with the usage object, then the
`[DONE]` sentinel — there is no separate usage chunk — in every case but
one: for the `o1` model with search, a `message_result` whose detail
answer cannot be extracted ends the stream with no finish chunk and no
`[DONE]` at all; (b) in the tool-use streaming path, every turn
terminates with a usage-free finish chunk (`stop` or `tool_calls`
according to the parser), then a separate usage chunk with an empty
`choices` array, then `[DONE]`. -/
theorem C3_stream_termination_amended (reasoningHide : Nat) (modelName : Lc)
    (searchModel : Bool) (pre : List UpEvent)
    (hpre : ∀ e ∈ pre, UpEvent.isResult e = false) (rc : Lc) (dA : Option Lc)
    (toolEvents : List UpEvent) (toolCallID : Lc) :
    (¬(modelName = "o1".data ∧ searchModel = true ∧ dA = none) →
      c3AmendedNoToolTail (handleStreamTurn reasoningHide modelName searchModel
        (pre ++ [.messageResult rc dA])) = true) ∧
    (modelName = "o1".data → searchModel = true → dA = none →
      c3AmendedNoToolTail (handleStreamTurn reasoningHide modelName searchModel
        (pre ++ [.messageResult rc dA])) = false ∧
      (handleStreamTurn reasoningHide modelName searchModel
        (pre ++ [.messageResult rc dA])).all
          (fun it => ! SSEItem.isDone it) = true) ∧
    c3AmendedToolTail (handleToolUseStreamTurn reasoningHide toolCallID
        toolEvents) = true := by
  obtain ⟨body, hb, hall⟩ := handleStreamTurn_result_split reasoningHide
    modelName searchModel pre hpre rc dA
  refine ⟨?_, ?_, ?_⟩
  · intro hne
    rw [hb]
    by_cases ho : modelName = "o1".data ∧ searchModel = true
    · cases dA with
      | none => exact absurd ⟨ho.1, ho.2, rfl⟩ hne
      | some d =>
          unfold handleMessageResult
          rw [if_pos ho]
          exact c3_shape_noTool body _ rfl rfl
    · unfold handleMessageResult
      rw [if_neg ho]
      exact c3_shape_noTool body _ rfl rfl
  · intro h1 h2 h3
    subst h3
    rw [hb]
    unfold handleMessageResult
    rw [if_pos ⟨h1, h2⟩]
    constructor
    · simpa using c3_tail_false_of_no_done body hall
    · simpa using hall
  · unfold handleToolUseStreamTurn
    apply c3_shape_tool
    split_ifs <;> simp

/-- Witness for C3 at concrete instances of all three conjuncts: an
ordinary no-tools turn, an `o1`-with-search turn whose detail answer is
missing, and a tool-use turn. -/
theorem C3_stream_termination_amended_witness :
    c3AmendedNoToolTail (handleStreamTurn 1 "m".data false
        ([.fieldEvent true "session_state.answer".data (some "A".data) none] ++
          [.messageResult "r".data none])) = true ∧
    c3AmendedNoToolTail (handleStreamTurn 1 "o1".data true
        ([] ++ [.messageResult "r".data none])) = false ∧
    c3AmendedToolTail (handleToolUseStreamTurn 1 "call_x".data
        [.fieldEvent true "session_state.answer".data (some "T".data) none])
      = true :=
  ⟨(C3_stream_termination_amended 1 "m".data false
      [.fieldEvent true "session_state.answer".data (some "A".data) none]
      (by decide) "r".data none
      [.fieldEvent true "session_state.answer".data (some "T".data) none]
      "call_x".data).1 (by decide),
   ((C3_stream_termination_amended 1 "o1".data true [] (by decide)
      "r".data none [] "c".data).2.1 rfl rfl rfl).1,
   (C3_stream_termination_amended 1 "m".data false
      [.fieldEvent true "session_state.answer".data (some "A".data) none]
      (by decide) "r".data none
      [.fieldEvent true "session_state.answer".data (some "T".data) none]
      "call_x".data).2.2⟩

/-- Claim C3 as frozen is false: on the spec's own happy-path example
(project_start, two `session_state.answer` deltas, message_result) the
no-tools streaming path ends with a single chunk carrying both
`finish_reason` and usage followed by `[DONE]`, not with a finish chunk
followed by a separate usage chunk. -/
theorem C3_counterexample :
    c3ClaimedTail (handleStreamTurn 1 "m".data false
      [.projectStart "P1".data,
       .fieldEvent true "session_state.answer".data (some "Hel".data) none,
       .fieldEvent true "session_state.answer".data (some "lo".data) none,
       .messageResult [] none]) = false := by decide

/-- Credential-fault classes recognised by the data-line classifier
(`common.IsRateLimit` / `IsFreeLimit` / `IsNotLogin`). -/
inductive CredFault where
  | rateLimited
  | freeQuota
  | notLogin
deriving DecidableEq, Repr

/-- Pool-state update requested for the current credential before
rotation: a cooldown deadline (`config.AddRateLimitCookie`) or permanent
removal (`config.RemoveCookie`). -/
inductive PoolAction where
  | cooldownUntil (deadline : Int)
  | removeFromPool
deriving DecidableEq, Repr

/-- Fault handling of `handleStreamRequest` (chat.go lines 1058-1076):
per-fault actions. `cfg` is `config.RateLimitCookieLockDuration` in
seconds, `now` the current time in seconds. -/
def chatStreamFaultAction (cfg now : Int) : CredFault → PoolAction
  | .rateLimited => .cooldownUntil (now + cfg)
  | .freeQuota => .cooldownUntil (now + 24 * 60 * 60)
  | .notLogin => .removeFromPool

/-- Fault handling of `handleNonStreamRequest` (chat.go lines 1445-1459). -/
def chatNonStreamFaultAction (cfg now : Int) : CredFault → PoolAction
  | .rateLimited => .cooldownUntil (now + cfg)
  | .freeQuota => .cooldownUntil (now + 24 * 60 * 60)
  | .notLogin => .removeFromPool

/-- Fault handling of `handleToolUseNonStreamRequest` (chat.go lines
2102-2106): one shared case arm for all three faults. -/
def toolUseNonStreamFaultAction (cfg now : Int) (_ : CredFault) : PoolAction :=
  .cooldownUntil (now + cfg)

/-- Fault handling of `handleToolUseStreamRequest` (chat.go lines
2351-2356): one shared branch for all three faults. -/
def toolUseStreamFaultAction (cfg now : Int) (_ : CredFault) : PoolAction :=
  .cooldownUntil (now + cfg)

/-- The per-fault policy claimed by the specification (rate-limited →
cooldown `cfg` seconds, free-quota → cooldown 24 h, not-logged-in →
removal).  Stated from the spec's words for comparison with the four
handler paths. -/
def specFaultPolicy (cfg now : Int) : CredFault → PoolAction
  | .rateLimited => .cooldownUntil (now + cfg)
  | .freeQuota => .cooldownUntil (now + 24 * 60 * 60)
  | .notLogin => .removeFromPool

/-- Claim C4 (amended): the chat streaming and non-streaming handlers
apply the claimed per-fault policy, but both tool-use handlers collapse
all three faults into a single `cfg`-second cooldown — a not-logged-in
credential is not removed and a free-quota-exhausted credential is not
cooled for 24 hours there. -/
theorem C4_fault_policy_amended (cfg now : Int) (f : CredFault) :
    chatStreamFaultAction cfg now f = specFaultPolicy cfg now f ∧
    chatNonStreamFaultAction cfg now f = specFaultPolicy cfg now f ∧
    toolUseNonStreamFaultAction cfg now f = .cooldownUntil (now + cfg) ∧
    toolUseStreamFaultAction cfg now f = .cooldownUntil (now + cfg) := by
  cases f <;> exact ⟨rfl, rfl, rfl, rfl⟩

/-- Claim C4 as frozen is false: in the tool-use streaming path a
not-logged-in credential receives a cooldown instead of removal (shown at
`cfg` = 600 s, `now` = 0). -/
theorem C4_counterexample :
    toolUseStreamFaultAction 600 0 .notLogin ≠ specFaultPolicy 600 0 .notLogin := by
  decide

/-- Outcome of the recaptcha-proxy body as `cheat` decodes it:
unparseable JSON, or a decoded `{code, token}` pair. -/
inductive CheatBody where
  | malformed
  | okBody (code : Int) (token : Lc)
deriving DecidableEq, Repr

/-- Outcome of the HTTP exchange inside `cheat`: transport-level failure
(request creation, send, or body read), or a response with a status code
and body. -/
inductive CheatFetch where
  | netFail
  | httpResp (status : Int) (body : CheatBody)
deriving DecidableEq, Repr

/-- `cheat` (chat.go lines 1132-1202).  The request body is a string map;
`.error ()` models `return nil, err` with non-nil `err` (the caller then
aborts the client request); `.ok none` models `return nil, err` where
`err` is nil (the caller proceeds with a nil body, which marshals to
`null`); `.ok (some rb)` models `return requestBody, nil`. -/
def cheat (cfgUrl : Lc) (rb : List (Lc × Lc)) (fetch : CheatFetch) :
    Except Unit (Option (List (Lc × Lc))) :=
  if trimL cfgUrl = [] ∨
     (hasPrefixL cfgUrl "http://".data = false ∧
      hasPrefixL cfgUrl "https://".data = false) then
    .ok (some rb)
  else
    match fetch with
    | .netFail => .error ()
    | .httpResp status body =>
        if status = 200 then
          match body with
          | .malformed => .error ()
          | .okBody code token =>
              if code = 200 then
                .ok (some (rb ++ [("g_recaptcha_token".data, token)]))
              else .ok none
        else .ok none

/-- Claim C5 (amended): with the recaptcha proxy configured, only a
successful fetch keeps the original body (plus the token).  A transport
or JSON failure returns an error, so the caller aborts the client request
without calling upstream; a non-200 HTTP status or a decoded code other
than 200 lets the call proceed but with the body replaced by a nil map
(marshalling to `null`), not with the original body minus the token. -/
theorem C5_cheat_amended (cfgUrl : Lc) (rb : List (Lc × Lc)) (fetch : CheatFetch)
    (hOn : ¬(trimL cfgUrl = [] ∨
      (hasPrefixL cfgUrl "http://".data = false ∧
       hasPrefixL cfgUrl "https://".data = false))) :
    (fetch = .netFail → cheat cfgUrl rb fetch = .error ()) ∧
    (∀ status body, fetch = .httpResp status body → status ≠ 200 →
      cheat cfgUrl rb fetch = .ok none) ∧
    (∀ status, fetch = .httpResp status .malformed → status = 200 →
      cheat cfgUrl rb fetch = .error ()) ∧
    (∀ status code token, fetch = .httpResp status (.okBody code token) →
      status = 200 → code ≠ 200 → cheat cfgUrl rb fetch = .ok none) ∧
    (∀ status code token, fetch = .httpResp status (.okBody code token) →
      status = 200 → code = 200 →
      cheat cfgUrl rb fetch =
        .ok (some (rb ++ [("g_recaptcha_token".data, token)]))) := by
  refine ⟨?_, ?_, ?_, ?_, ?_⟩
  · intro hf
    subst hf
    simp [cheat, hOn]
  · intro status body hf hs
    subst hf
    simp [cheat, hOn, hs]
  · intro status hf hs
    subst hf hs
    simp [cheat, hOn]
  · intro status code token hf hs hc
    subst hf hs
    simp [cheat, hOn, hc]
  · intro status code token hf hs hc
    subst hf hs hc
    simp [cheat, hOn]

/-- Witness for C5: configured proxy, network failure aborts. -/
theorem C5_cheat_amended_witness :
    cheat "http://p".data [] .netFail = .error () :=
  (C5_cheat_amended "http://p".data [] .netFail (by decide)).1 rfl

/-- Claim C5 as frozen is false: with the proxy configured, a network
failure makes `cheat` return an error (the caller aborts the client
request), and a non-200 upstream status yields a nil body (`null` after
marshalling), not the original body without the token. -/
theorem C5_counterexample :
    cheat "http://p".data [("k".data, "v".data)] .netFail = .error () ∧
    cheat "http://p".data [("k".data, "v".data)] (.httpResp 500 (.okBody 200 []))
      = .ok none := by
  exact ⟨rfl, rfl⟩

/-- An OpenAI chat message (role plus flattened content). -/
structure Msg where
  role : Lc
  content : Lc
deriving DecidableEq, Repr

/-- The backward scan of `FilterUserMessage` (openai.go lines 110-116):
index of the last message with role `user`, `-1` when there is none. -/
def lastUserIdxAux (i : Int) : List Msg → Int
  | [] => -1
  | m :: rest =>
      let r := lastUserIdxAux (i + 1) rest
      if r ≠ -1 then r
      else if m.role = "user".data then i else -1

def lastUserIdx (msgs : List Msg) : Int := lastUserIdxAux 0 msgs

/-- The filtering loop of `FilterUserMessage` (openai.go lines 123-128):
keep a message when its role is `system` or its index is at least the
last-user index. -/
def fumLoop (lu : Int) (i : Int) : List Msg → List Msg
  | [] => []
  | m :: rest =>
      if m.role = "system".data ∨ lu ≤ i then
        m :: fumLoop lu (i + 1) rest
      else fumLoop lu (i + 1) rest

/-- `OpenAIChatCompletionRequest.FilterUserMessage`
(src/model/openai.go lines 104-130). -/
def FilterUserMessage (msgs : List Msg) : List Msg :=
  if lastUserIdx msgs = -1 then msgs
  else fumLoop (lastUserIdx msgs) 0 msgs

/-- The session-resolution fragment of `createRequestBody` (chat.go lines
383-393): a model-chat-map hit or a session-registry hit keeps the
history; otherwise requests without tools filter it. -/
def resolveMessages (modelChatHit sessionHit : Bool) (toolCount : Nat)
    (msgs : List Msg) : List Msg :=
  if modelChatHit then msgs
  else if sessionHit then msgs
  else if toolCount = 0 then FilterUserMessage msgs
  else msgs

theorem fumLoop_ge (lu : Int) :
    ∀ (l : List Msg) (i : Int), lu ≤ i → fumLoop lu i l = l := by
  intro l
  induction l with
  | nil => intro i _; rfl
  | cons m rest ih =>
      intro i h
      simp only [fumLoop]
      rw [if_pos (Or.inr h), ih (i + 1) (by omega)]

theorem fumLoop_eq (lu : Int) :
    ∀ (l : List Msg) (i : Int),
      fumLoop lu i l =
        ((l.take (lu - i).toNat).filter
          (fun m => m.role = "system".data)) ++ l.drop (lu - i).toNat := by
  intro l
  induction l with
  | nil => intro i; simp [fumLoop]
  | cons m rest ih =>
      intro i
      by_cases h : lu ≤ i
      · have h0 : (lu - i).toNat = 0 := by omega
        rw [h0]
        simpa using fumLoop_ge lu (m :: rest) i h
      · have h1 : (lu - i).toNat = (lu - (i + 1)).toNat + 1 := by omega
        rw [h1]
        simp only [List.take_succ_cons, List.drop_succ_cons, fumLoop]
        by_cases hs : m.role = "system".data
        · rw [if_pos (Or.inl hs), ih (i + 1)]
          simp [List.filter_cons, hs]
        · rw [if_neg (by rintro (hc | hc); exacts [hs hc, h hc]), ih (i + 1)]
          simp [List.filter_cons, hs]

/-- Claim C7 (amended): requests with a session id (model-chat map or
registry) or with tools keep the history unchanged; otherwise the history
is filtered — but not down to the last user message alone: when the last
user message sits at index `i`, the filtered history is all system
messages before `i` followed by the entire original tail from `i` on.
With no user message the history is unchanged. -/
theorem C7_history_filter_amended (modelChatHit sessionHit : Bool)
    (toolCount : Nat) (msgs : List Msg) :
    (modelChatHit = true ∨ sessionHit = true ∨ toolCount ≠ 0 →
      resolveMessages modelChatHit sessionHit toolCount msgs = msgs) ∧
    (modelChatHit = false → sessionHit = false → toolCount = 0 →
      resolveMessages modelChatHit sessionHit toolCount msgs
        = FilterUserMessage msgs) ∧
    (∀ i : Nat, lastUserIdx msgs = (i : Int) →
      FilterUserMessage msgs =
        ((msgs.take i).filter (fun m => m.role = "system".data))
          ++ msgs.drop i) ∧
    (lastUserIdx msgs = -1 → FilterUserMessage msgs = msgs) := by
  refine ⟨?_, ?_, ?_, ?_⟩
  · rintro (h | h | h) <;> simp [resolveMessages, h]
  · intro h1 h2 h3
    simp [resolveMessages, h1, h2, h3]
  · intro i hi
    unfold FilterUserMessage
    rw [hi, if_neg (show ¬((i : Int) = -1) by omega)]
    rw [fumLoop_eq (i : Int) msgs 0]
    have h2 : ((i : Int) - 0).toNat = i := by omega
    rw [h2]
  · intro h
    unfold FilterUserMessage
    rw [h]
    simp

/-- Witness for C7: history `[system, user1, user2]` without any session
id and without tools filters to `[system, user2]` via the
characterization at last-user index 2. -/
theorem C7_history_filter_amended_witness :
    resolveMessages false false 0
      [⟨"system".data, "s".data⟩, ⟨"user".data, "u1".data⟩,
       ⟨"user".data, "u2".data⟩]
      = (([⟨"system".data, "s".data⟩, ⟨"user".data, "u1".data⟩,
          ⟨"user".data, "u2".data⟩] : List Msg).take 2).filter
          (fun m => m.role = "system".data)
        ++ ([⟨"system".data, "s".data⟩, ⟨"user".data, "u1".data⟩,
          ⟨"user".data, "u2".data⟩] : List Msg).drop 2 :=
  ((C7_history_filter_amended false false 0 _).2.1 rfl rfl rfl).trans
    ((C7_history_filter_amended false false 0 _).2.2.1 2 (by decide))

/-- Claim C7 as frozen is false: for the history
`[system, user1, user2]` with no session id and no tools, the upstream
history is `[system, user2]`, not the last user message alone. -/
theorem C7_counterexample :
    resolveMessages false false 0
      [⟨"system".data, "s".data⟩, ⟨"user".data, "u1".data⟩,
       ⟨"user".data, "u2".data⟩]
      ≠ [⟨"user".data, "u2".data⟩] := by decide

/-- Go `strings.Index` for a one-character needle: scan with a running
index. -/
def indexOfFrom (c : Char) (i : Int) : Lc → Int
  | [] => -1
  | x :: rest => if x = c then i else indexOfFrom c (i + 1) rest

def indexOfL (s : Lc) (c : Char) : Int := indexOfFrom c 0 s

/-- Go `strings.LastIndex` for a one-character needle. -/
def lastIndexFrom (c : Char) (i : Int) : Lc → Int
  | [] => -1
  | x :: rest =>
      let r := lastIndexFrom c (i + 1) rest
      if r ≠ -1 then r else if x = c then i else -1

def lastIndexOfL (s : Lc) (c : Char) : Int := lastIndexFrom c 0 s

/-- `tooluse.ToolCallResponse`: the decoded reply JSON.  `Ty` is the Go
field `Type`; `Arguments` is the decoded arguments value, re-serialized
with `JVal.ser` when converting to an OpenAI tool call. -/
structure ToolCallResponse where
  Ty : Lc
  Tool : Lc
  Content : Lc
  Arguments : tooluse.JVal
deriving DecidableEq

/-- A submitted OpenAI tool (`type` plus `function.name`). -/
structure OpenAITool where
  ty : Lc
  name : Lc
deriving DecidableEq

/-- `tooluse.ParseToolCallFromText` (src/unnamed/part_008 lines 228-257),
with `json.Unmarshal` abstracted as `decode`: trim, slice from the first
`\x7b` to the last `\x7d`, decode, and validate that the type is
`tool_call` or `response` and that a tool call names a tool.  `none`
models a non-nil error. -/
def ParseToolCallFromText (decode : Lc → Option ToolCallResponse)
    (text : Lc) : Option ToolCallResponse :=
  let t := trimL text
  let s := indexOfL t lbrace
  let e := lastIndexOfL t rbrace
  if s = -1 ∨ e = -1 ∨ e < s then none
  else
    match decode ((t.drop s.toNat).take (e + 1 - s).toNat) with
    | none => none
    | some r =>
        if r.Ty ≠ "tool_call".data ∧ r.Ty ≠ "response".data then none
        else if r.Ty = "tool_call".data ∧ r.Tool = [] then none
        else some r

/-- `tooluse.ValidateToolCall` (src/unnamed/part_008 lines 288-302):
`true` models a nil error. -/
def ValidateToolCall (r : ToolCallResponse) (tools : List OpenAITool) : Bool :=
  if r.Ty ≠ "tool_call".data then true
  else tools.any (fun t => t.ty == "function".data && t.name == r.Tool)

/-- The four responses `handleToolUseNonStreamRequest` can send once the
full reply text is accumulated (chat.go lines 2182-2283).  `fallbackRaw`
is HTTP 200 with the raw text and finish reason `stop`; `invalidToolCall`
is HTTP 400 with error type `invalid_tool_call`; `toolCalls` is HTTP 200
with `message.tool_calls[0].function = (name, args)` and finish reason
`tool_calls`; `contentResp` is HTTP 200 with a plain content message and
finish reason `stop`. -/
inductive ToolUseOutcome where
  | fallbackRaw (content : Lc)
  | invalidToolCall
  | toolCalls (name : Lc) (args : Lc)
  | contentResp (content : Lc)
deriving DecidableEq, Repr

def ToolUseOutcome.httpStatus : ToolUseOutcome → Nat
  | .invalidToolCall => 400
  | _ => 200

def ToolUseOutcome.finishReason : ToolUseOutcome → Option Lc
  | .toolCalls _ _ => some "tool_calls".data
  | .contentResp _ => some "stop".data
  | .fallbackRaw _ => some "stop".data
  | .invalidToolCall => none

/-- The response-assembly tail of `handleToolUseNonStreamRequest`
(chat.go lines 2182-2283): parse, validate, then branch on
`IsToolCallResponse` (serializing the arguments via
`ConvertToOpenAIToolCall`, part_008 lines 260-277). -/
def respondToolUse (decode : Lc → Option ToolCallResponse)
    (tools : List OpenAITool) (content : Lc) : ToolUseOutcome :=
  match ParseToolCallFromText decode content with
  | none => .fallbackRaw content
  | some r =>
      if ValidateToolCall r tools = false then .invalidToolCall
      else if r.Ty = "tool_call".data then
        .toolCalls r.Tool (tooluse.JVal.ser r.Arguments)
      else .contentResp r.Content

/-- Claim C6: after accumulating the reply text of a non-streaming tool
request, (i) a parsed `tool_call` whose tool is declared yields
`message.tool_calls[0].function = (name, serialized arguments)` with
finish reason `tool_calls`; (ii) a parsed `response` yields a plain
content message with finish reason `stop`; (iii) a parsed `tool_call`
whose tool is not declared yields the 400 `invalid_tool_call` error; and
(iv) a failed extraction or parse falls back to the raw text as a normal
content response. -/
theorem C6_tool_call_adapter (decode : Lc → Option ToolCallResponse)
    (tools : List OpenAITool) (content : Lc) :
    (∀ r, ParseToolCallFromText decode content = some r →
      r.Ty = "tool_call".data →
      tools.any (fun t => t.ty == "function".data && t.name == r.Tool) = true →
      respondToolUse decode tools content
          = .toolCalls r.Tool (tooluse.JVal.ser r.Arguments) ∧
        (respondToolUse decode tools content).finishReason
          = some "tool_calls".data ∧
        (respondToolUse decode tools content).httpStatus = 200) ∧
    (∀ r, ParseToolCallFromText decode content = some r →
      r.Ty = "response".data →
      respondToolUse decode tools content = .contentResp r.Content ∧
        (respondToolUse decode tools content).finishReason
          = some "stop".data ∧
        (respondToolUse decode tools content).httpStatus = 200) ∧
    (∀ r, ParseToolCallFromText decode content = some r →
      r.Ty = "tool_call".data →
      tools.any (fun t => t.ty == "function".data && t.name == r.Tool) = false →
      respondToolUse decode tools content = .invalidToolCall ∧
        (respondToolUse decode tools content).httpStatus = 400) ∧
    (ParseToolCallFromText decode content = none →
      respondToolUse decode tools content = .fallbackRaw content ∧
        (respondToolUse decode tools content).finishReason
          = some "stop".data ∧
        (respondToolUse decode tools content).httpStatus = 200) := by
  refine ⟨?_, ?_, ?_, ?_⟩
  · intro r hp hty hval
    have hv : ValidateToolCall r tools = true := by
      unfold ValidateToolCall
      rw [if_neg (by simp [hty])]
      exact hval
    refine ⟨?_, ?_, ?_⟩ <;>
      simp [respondToolUse, hp, hv, hty, ToolUseOutcome.finishReason,
        ToolUseOutcome.httpStatus]
  · intro r hp hty
    have hne : ¬(r.Ty = "tool_call".data) := by
      rw [hty]
      decide
    have hv : ValidateToolCall r tools = true := by
      unfold ValidateToolCall
      rw [if_pos hne]
    refine ⟨?_, ?_, ?_⟩ <;>
      simp [respondToolUse, hp, hv, hne, ToolUseOutcome.finishReason,
        ToolUseOutcome.httpStatus]
  · intro r hp hty hval
    have hv : ValidateToolCall r tools = false := by
      unfold ValidateToolCall
      rw [if_neg (by simp [hty])]
      exact hval
    refine ⟨?_, ?_⟩ <;>
      simp [respondToolUse, hp, hv, ToolUseOutcome.httpStatus]
  · intro hp
    refine ⟨?_, ?_, ?_⟩ <;>
      simp [respondToolUse, hp, ToolUseOutcome.finishReason,
        ToolUseOutcome.httpStatus]

/-- A concrete decoder for the witness: recognises the single reply
`\x7bx\x7d` as a `get_weather` tool call with arguments
`\x7b"city":"Paris"\x7d`. -/
def c6DecodeW : Lc → Option ToolCallResponse := fun s =>
  if s = lbrace :: "x".data ++ [rbrace] then
    some ⟨"tool_call".data, "get_weather".data, [],
      .jobj (.fcons "city".data (.jstr "Paris".data) .fnil)⟩
  else none

/-- Witness for C6: the declared `get_weather` tool call round-trips to a
`tool_calls` response with the serialized arguments. -/
theorem C6_tool_call_adapter_witness :
    respondToolUse c6DecodeW [⟨"function".data, "get_weather".data⟩]
        (lbrace :: "x".data ++ [rbrace])
      = .toolCalls "get_weather".data
          (tooluse.JVal.ser
            (.jobj (.fcons "city".data (.jstr "Paris".data) .fnil))) :=
  ((C6_tool_call_adapter c6DecodeW [⟨"function".data, "get_weather".data⟩]
      (lbrace :: "x".data ++ [rbrace])).1
    ⟨"tool_call".data, "get_weather".data, [],
      .jobj (.fcons "city".data (.jstr "Paris".data) .fnil)⟩
    (by decide) rfl (by decide)).1

end controller

namespace metrics

/-- `MetricsCollector.GetMetrics` requests-per-minute field
(src/unnamed/part_000 line 252):
`m.TotalRequests / int64(time.Since(m.LastResetTime).Minutes())`.
`int64` truncation of the float minutes is whole minutes since reset;
`none` models the Go runtime panic of integer division by zero. -/
def requestsPerMinute (totalRequests : Int) (elapsedSeconds : Nat) : Option Int :=
  let minutes : Int := ((elapsedSeconds / 60 : Nat) : Int)
  if minutes = 0 then none else some (totalRequests / minutes)

/-- The computation the specification prescribes for the same field:
divide by `max(1, whole minutes since reset)`.  Stated from the spec's
words for comparison with `requestsPerMinute`. -/
def specRequestsPerMinute (totalRequests : Int) (elapsedSeconds : Nat) : Int :=
  totalRequests / max 1 ((elapsedSeconds / 60 : Nat) : Int)

/-- Claim C9: the code divides by the raw whole-minute count, not by
`max(1, ·)`; within the first minute after a reset the divisor is zero
and the Go integer division panics (modelled `none`), while the
specified computation yields the total request count. -/
theorem C9_requests_per_minute_bug (totalRequests : Int) (elapsedSeconds : Nat)
    (h : elapsedSeconds < 60) :
    requestsPerMinute totalRequests elapsedSeconds = none ∧
    specRequestsPerMinute totalRequests elapsedSeconds = totalRequests := by
  have h0 : elapsedSeconds / 60 = 0 := Nat.div_eq_of_lt h
  constructor
  · simp [requestsPerMinute, h0]
  · simp [specRequestsPerMinute, h0]

/-- Witness for C9: 30 seconds after a reset with 5 total requests. -/
theorem C9_requests_per_minute_bug_witness :
    requestsPerMinute 5 30 = none ∧ specRequestsPerMinute 5 30 = 5 :=
  C9_requests_per_minute_bug 5 30 (by decide)

end metrics
